import Mathlib

/-!
Verification development for the parallel chunked aggregation engine
(billion-row challenge style): fixed-point decoder, boundary-safe chunk
reader, batch aggregator, merge reducer and report formatter.

Modelling conventions:
* bytes are `Nat` values below 256; input files are `List Nat`;
* Rust `i32` arithmetic is modelled on `Int` with explicit two's-complement
  wrapping (`wrap32`), matching release-mode overflow semantics; `u32`
  counters wrap modulo `2 ^ 32`;
* fallible code (array indexing, `unwrap`, `unreachable!`) is modelled with
  `Option`: `none` means the run aborts with a panic and produces no output;
* strings handed to the decoder are `List Char`; `str::len` (a byte count)
  is modelled by `utf8Len`.
-/

/-- Two's-complement wrapping of an unbounded integer into the `i32` range
`[-2^31, 2^31)`; this is what Rust release-mode `i32` arithmetic computes. -/
def wrap32 (n : Int) : Int := (n + 2 ^ 31) % 2 ^ 32 - 2 ^ 31

/-- UTF-8 byte length of a character list, modelling Rust `str::len`. -/
def utf8Len (s : List Char) : Nat := s.foldl (fun n c => n + c.utf8Size) 0

/-- One step of `char::to_digit(10)`: the numeric value of a decimal digit. -/
def toDigit10 (c : Char) : Option Nat := if c.isDigit then some (c.toNat - 48) else none

/-- The digit-accumulation loop of `parse_i32`, scanning characters from the
least significant end.  `r` is the accumulated result, `p` the current place
value, `neg` selects the subtracting branch.  Each arithmetic operation wraps
like `i32`; a non-digit character other than `'.'` makes `to_digit(10).unwrap()`
panic, modelled as `none`. -/
def parseLoop : List Char → Int → Int → Bool → Option Int
  | [], r, _, _ => some r
  | c :: cs, r, p, neg =>
    if c = '.' then parseLoop cs r p neg
    else
      match toDigit10 c with
      | none => none
      | some d =>
        let t := wrap32 ((d : Int) * p)
        let r' := if neg then wrap32 (r - t) else wrap32 (r + t)
        parseLoop cs r' (wrap32 (p * 10)) neg

/-- Model of `parse_i32` from the source: reverse the characters; if the first
byte is `b'-'`, scan `value.len() - 1` of them subtracting, otherwise scan all
of them adding.  `value.as_bytes()[0]` on an empty string panics (`none`). -/
def parse_i32 (value : List Char) : Option Int :=
  match value with
  | [] => none
  | c0 :: _ =>
    if c0 = '-' then parseLoop (value.reverse.take (utf8Len value - 1)) 0 1 true
    else parseLoop value.reverse 0 1 false

/-- The shape `\d+\.\d` (nonempty digit run, dot, one fractional digit). -/
def shapePos (s : List Char) : Bool :=
  match s.reverse with
  | d :: dot :: rest => d.isDigit && dot = '.' && !rest.isEmpty && rest.all Char.isDigit
  | _ => false

/-- The shape `-?\d+\.\d` of the decoder's contract. -/
def matchesShape (s : List Char) : Bool :=
  match s with
  | '-' :: rest => shapePos rest
  | s => shapePos s

/-- Positional value of a digit string, most significant digit first. -/
def intValMS : List Char → Int
  | [] => 0
  | c :: cs => ((c.toNat : Int) - 48) * 10 ^ cs.length + intValMS cs

/-- The decimal value of a `\d+\.\d` string multiplied by 10. -/
def valPos (s : List Char) : Int :=
  match s.reverse with
  | d :: _ :: rest => 10 * intValMS rest.reverse + ((d.toNat : Int) - 48)
  | _ => 0

/-- The decimal value of a `-?\d+\.\d` string multiplied by 10: the exact
`ScaledValue` the specification promises. -/
def scaledIntVal (s : List Char) : Int :=
  match s with
  | '-' :: rest => - valPos rest
  | s => valPos s

/-- Value of a digit list taken least-significant-first. -/
def digitsValRev : List Char → Int
  | [] => 0
  | c :: cs => ((c.toNat : Int) - 48) + 10 * digitsValRev cs

/-- Per-key aggregate: `sum: i32`, `count: u32`, `min: i32`, `max: i32`.
Fields are unbounded `Int`/`Nat` but every operation wraps as the machine
types do. -/
@[ext]
structure Data where
  sum : Int
  count : Nat
  min : Int
  max : Int
  deriving DecidableEq

/-- `Data::update`: `sum += value; count += 1;` then seed-then-compare
`if value < min { min = value } else if value > max { max = value }`. -/
def Data.update (d : Data) (value : Int) : Data :=
  ⟨wrap32 (d.sum + value), (d.count + 1) % 2 ^ 32,
    if value < d.min then value else d.min,
    if value < d.min then d.max else if value > d.max then value else d.max⟩

/-- `Data::union`: field-wise combination of two aggregates for one key. -/
def Data.union (d other : Data) : Data :=
  ⟨wrap32 (d.sum + other.sum), (d.count + other.count) % 2 ^ 32,
    if d.min < other.min then d.min else other.min,
    if d.max > other.max then d.max else other.max⟩

/-- The aggregate inserted on first sight of a key:
`Data { sum: value, count: 1, min: value, max: value }`. -/
def seedData (value : Int) : Data := ⟨value, 1, value, value⟩

/-- `min ≤ max`; holds for every aggregate the program ever builds. -/
def Data.wf (d : Data) : Prop := d.min ≤ d.max

/-- A UTF-8 continuation byte: `b & 0b1100_0000 == 0b1000_0000`. -/
def isCont (b : Nat) : Bool := 128 ≤ b && b < 192

/-- Index of the last occurrence of byte `t`, modelling `rfind`/`rposition`. -/
def rpos (t : Nat) : List Nat → Option Nat
  | [] => none
  | x :: xs =>
    match rpos t xs with
    | some i => some (i + 1)
    | none => if x = t then some 0 else none

/-- `split_line`: split a line at the rightmost `b';'` (byte 59) into
`(station, value)`; `None` when the line has no delimiter. -/
def split_line (l : List Nat) : Option (List Nat × List Nat) :=
  match rpos 59 l with
  | none => none
  | some i => some (l.take i, l.drop (i + 1))

/-- Bytes of the value field viewed as characters.  This agrees with Rust's
`str::chars` whenever the bytes are ASCII, which the shape `-?\d+\.\d`
guarantees wherever the pipeline lemmas apply this function. -/
def bytesToChars (v : List Nat) : List Char := v.map Char.ofNat

/-- One line of `process_batch`: split at the delimiter, decode the value.
`none` models the `unreachable!("Invalid line")` and decoder panics. -/
def parseLine (l : List Nat) : Option (List Nat × Int) :=
  match split_line l with
  | none => none
  | some kv =>
    match parse_i32 (bytesToChars kv.2) with
    | none => none
    | some x => some (kv.1, x)

/-- A well-formed record line: newline-free, has a delimiter, and its value
field matches `-?\d+\.\d`. -/
def wfLine (l : List Nat) : Bool :=
  match split_line l with
  | none => false
  | some kv => matchesShape (bytesToChars kv.2) && l.all (fun b => b != 10)

/-- Local/master table: association list from station bytes to aggregates.
Models the hash maps; only lookup behaviour matters. -/
abbrev Table := List (List Nat × Data)

/-- Hash-map lookup. -/
def lookupT : Table → List Nat → Option Data
  | [], _ => none
  | e :: rest, k => if e.1 = k then some e.2 else lookupT rest k

/-- `entry(k).and_modify(|d| d.update(v)).or_insert_with(seed)`. -/
def upsert : Table → List Nat → Int → Table
  | [], k, v => [(k, seedData v)]
  | e :: rest, k, v => if e.1 = k then (e.1, e.2.update v) :: rest else e :: upsert rest k v

/-- `entry(k).and_modify(|m| m.union(&d)).or_insert(d)` of the merge phase. -/
def upsertUnion : Table → List Nat → Data → Table
  | [], k, d => [(k, d)]
  | e :: rest, k, d => if e.1 = k then (e.1, e.2.union d) :: rest else e :: upsertUnion rest k d

/-- Folding a list of already-parsed records into a table. -/
def processRecords (recs : List (List Nat × Int)) : Table :=
  recs.foldl (fun m r => upsert m r.1 r.2) []

/-- The per-line loop of `process_batch` over already-split lines. -/
def processLines : List (List Nat) → Table → Option Table
  | [], m => some m
  | l :: ls, m =>
    match parseLine l with
    | none => none
    | some r => processLines ls (upsert m r.1 r.2)

/-- Rust `str::split(sep)` semantics on byte lists: `n` separators yield
`n + 1` pieces (possibly empty). -/
def rustSplit (t : Nat) : List Nat → List (List Nat)
  | [] => [[]]
  | c :: cs =>
    if c = t then [] :: rustSplit t cs
    else
      match rustSplit t cs with
      | [] => [[c]]
      | h :: r => (c :: h) :: r

/-- `String::pop`: remove the last character, i.e. the trailing run of
continuation bytes plus one lead byte (just the last byte when it is ASCII,
e.g. the final newline). -/
def popChar (l : List Nat) : List Nat :=
  ((l.reverse.dropWhile isCont).drop 1).reverse

/-- `process_batch`: drop the trailing newline, split into lines, fold each
parsed line into a fresh local table; `none` models the fatal panics. -/
def process_batch (b : List Nat) : Option Table :=
  processLines (rustSplit 10 (popChar b)) []

/-- The merge-reducer loop folding every local table into the master table.
The real queue pops in an unspecified order; order-independence is proved
separately. -/
def mergeTables (ts : List Table) : Table :=
  ts.foldl (fun m t => t.foldl (fun m e => upsertUnion m e.1 e.2) m) []

/-- The values recorded for key `k`, in input order. -/
def valuesOf (recs : List (List Nat × Int)) (k : List Nat) : List Int :=
  recs.filterMap (fun r => if r.1 = k then some r.2 else none)

/-- Repeated `Data::update`. -/
def updFold (d : Data) (vs : List Int) : Data := vs.foldl Data.update d

/-- The aggregate a value list produces: seed on the first value, update on
the rest; `none` for the empty list (no entry is created). -/
def aggOf : List Int → Option Data
  | [] => none
  | v :: vs => some (updFold (seedData v) vs)

/-- Union on optional aggregates (absent key = `none`). -/
def mergeAgg : Option Data → Option Data → Option Data
  | none, y => y
  | some a, none => some a
  | some a, some b => some (a.union b)

/-- Bytes pulled per read: `BATCH_SIZE * (AVERAGE_LINE_LENGTH + 1)`
`= 1_000_000 * 17`. -/
def readSize : Nat := 1000000 * 17

/-- The continuation-byte adjustment of the chunk reader (source lines
167-174): if the new remainder starts with a continuation byte, walk
`char_start` back from the END of the remainder over continuation bytes and
move that trailing run onto the end of the batch. -/
def adjustSplit (batch rem : List Nat) : List Nat × List Nat :=
  match rem with
  | [] => (batch, rem)
  | r0 :: _ =>
    if isCont r0 then
      (batch ++ rem.drop (rem.length - (rem.reverse.takeWhile isCont).length),
        rem.take (rem.length - (rem.reverse.takeWhile isCont).length))
    else (batch, rem)

/-- The reader loop of `process_file`: prepend the carried remainder to a
fresh read of up to `readSize` bytes; stop when the read returns nothing
(dropping any leftover remainder, as the code does); otherwise split after
the last newline, apply the continuation adjustment, emit the batch and
carry the new remainder.  The first argument is structural fuel so the
function reduces in the kernel; one unit per iteration is ample since every
iteration consumes at least one byte of `remaining`. -/
def readLoopF : Nat → List Nat → List Nat → List (List Nat)
  | 0, _, _ => []
  | fuel + 1, remaining, remainder =>
    if remaining = [] then []
    else
      match rpos 10 (remainder ++ remaining.take readSize) with
      | none =>
        (remainder ++ remaining.take readSize) :: readLoopF fuel (remaining.drop readSize) []
      | some i =>
        (adjustSplit ((remainder ++ remaining.take readSize).take (i + 1))
            ((remainder ++ remaining.take readSize).drop (i + 1))).1 ::
          readLoopF fuel (remaining.drop readSize)
            (adjustSplit ((remainder ++ remaining.take readSize).take (i + 1))
              ((remainder ++ remaining.take readSize).drop (i + 1))).2

/-- The sequence of batches the reader emits for a whole input. -/
def readBatches (input : List Nat) : List (List Nat) := readLoopF (input.length + 1) input []

/-- Round `num / den` (with `den > 0`) to the nearest integer, ties to even:
the rounding `{:.1}` applies to an exactly-representable quotient. -/
def roundHE (num den : Int) : Int :=
  if 2 * (num - Int.fdiv num den * den) < den then Int.fdiv num den
  else if den < 2 * (num - Int.fdiv num den * den) then Int.fdiv num den + 1
  else if Int.fdiv num den % 2 = 0 then Int.fdiv num den else Int.fdiv num den + 1

/-- Rust `{}` display of `(v as f64) / 10.0`: the shortest round-tripping
decimal, which for small scaled integers is `v/10` with the trailing `.0`
omitted when `v` is a multiple of ten.  Exact for the small values the
scenarios use. -/
def fmtMinMax (v : Int) : String :=
  if v % 10 = 0 then toString (v / 10)
  else (if v < 0 then "-" else "") ++ toString (v.natAbs / 10) ++ "." ++ toString (v.natAbs % 10)

/-- Rust `{:.1}` display of `sum as f64 / count as f64 / 10.0`, modelled as
exact rational rounding to one decimal (ties to even); exact whenever the
float pipeline is exact, as in the concrete scenarios proved below. -/
def fmtMean (s : Int) (c : Nat) : String :=
  if c = 0 then "NaN"
  else
    (if roundHE s (c : Int) < 0 then "-" else "") ++
      toString ((roundHE s (c : Int)).natAbs / 10) ++ "." ++
      toString ((roundHE s (c : Int)).natAbs % 10)

/-- `Display for Data`: `min/mean/max`. -/
def fmtData (d : Data) : String :=
  fmtMinMax d.min ++ "/" ++ fmtMean d.sum d.count ++ "/" ++ fmtMinMax d.max

/-- Byte-lexicographic `≤` on keys, the order `sort_unstable` uses for
`String` keys. -/
def byteLex : List Nat → List Nat → Bool
  | [], _ => true
  | _ :: _, [] => false
  | x :: xs, y :: ys => if x < y then true else if y < x then false else byteLex xs ys

/-- Insertion into a sorted table. -/
def insertSorted (e : List Nat × Data) : Table → Table
  | [] => [e]
  | f :: rest => if byteLex e.1 f.1 then e :: f :: rest else f :: insertSorted e rest

/-- Sort the master table by key, modelling `stations.sort_unstable()`. -/
def sortTable : Table → Table
  | [] => []
  | e :: rest => insertSorted e (sortTable rest)

/-- Station bytes rendered back to text (ASCII in all scenarios used). -/
def asString (k : List Nat) : String := String.mk (bytesToChars k)

/-- The `station=min/mean/max` entries joined with `", "`. -/
def renderEntries : Table → String
  | [] => ""
  | [e] => asString e.1 ++ "=" ++ fmtData e.2
  | e :: rest => asString e.1 ++ "=" ++ fmtData e.2 ++ ", " ++ renderEntries rest

/-- The report: sorted entries wrapped in braces, plus the final newline. -/
def renderReport (t : Table) : String :=
  "\x7b" ++ renderEntries (sortTable t) ++ "\x7d" ++ "\n"

/-- Run a fallible step over a list; one failure fails the whole run. -/
def mapOpt (f : α → Option β) : List α → Option (List β)
  | [] => some []
  | a :: as =>
    match f a with
    | none => none
    | some b =>
      match mapOpt f as with
      | none => none
      | some bs => some (b :: bs)

/-- `process_file`: read batches, aggregate each, merge, render.  A panic
anywhere (modelled `none`) aborts the run before any output is written. -/
def process_file (input : List Nat) : Option String :=
  match mapOpt process_batch (readBatches input) with
  | none => none
  | some ts => some (renderReport (mergeTables ts))

/-- The lines of an input file: maximal newline-free runs, one per record; a
trailing record without a newline still counts (matching the spec's notion
of input lines).  Structural fuel (one unit per line) keeps the function
kernel-computable; `l.length` units are always enough. -/
def nlSplitF : Nat → List Nat → List (List Nat)
  | 0, _ => []
  | _ + 1, [] => []
  | fuel + 1, b :: bs =>
    ((b :: bs).takeWhile (fun x => x != 10)) ::
      nlSplitF fuel (((b :: bs).dropWhile (fun x => x != 10)).drop 1)

/-- The lines of an input file (fuel instantiated). -/
def nlSplit (l : List Nat) : List (List Nat) := nlSplitF l.length l

/-- Concatenation of newline-terminated lines. -/
def termLines (ls : List (List Nat)) : List Nat :=
  (ls.map (fun l => l ++ [10])).flatten

/-- Byte list of an ASCII string (every scenario below is ASCII, where
`Char.toNat` is exactly the UTF-8 byte). -/
def strBytes (s : String) : List Nat := s.data.map Char.toNat

/-- A well-formed input file in the sense of the claims: nonempty, and every
line is a well-formed record (the last one possibly unterminated). -/
def wfInput (input : List Nat) : Bool :=
  !input.isEmpty && (nlSplit input).all wfLine

/-- Folding further values into an optional aggregate: an existing entry is
updated, an absent one is seeded by the first value. -/
def combineAcc : Option Data → List Int → Option Data
  | some d, vs => some (updFold d vs)
  | none, vs => aggOf vs

/-- Every aggregate stored in the table satisfies `min ≤ max`. -/
def wfTable (m : Table) : Prop := ∀ e ∈ m, Data.wf e.2

/-- After any newline byte the next byte is not a continuation byte: the
encoding-validity fact the reader relies on (true of valid UTF-8, where a
newline is always a character boundary). -/
abbrev nlBoundaryOk (l : List Nat) : Prop :=
  List.Chain' (fun x y => x = 10 → isCont y = false) l

/-- Executable check of `nlBoundaryOk`. -/
def nlBoundaryOkB : List Nat → Bool
  | [] => true
  | x :: xs =>
    (match xs with
     | [] => true
     | y :: _ => if x = 10 then !(isCont y) else true) && nlBoundaryOkB xs

/-- Every window of `readSize` consecutive bytes contains a newline; holds
for any input whose lines are shorter than `readSize` (the code assumes
lines of at most 107 bytes against 17-megabyte reads). -/
def noLongLine (l : List Nat) : Prop :=
  ∀ j, readSize ≤ (l.drop j).length → (10 : Nat) ∈ (l.drop j).take readSize

theorem wrap32_range (n : Int) : -2 ^ 31 ≤ wrap32 n ∧ wrap32 n < 2 ^ 31 := by
  unfold wrap32
  omega

theorem wrap32_eq_self {n : Int} (h1 : -2 ^ 31 ≤ n) (h2 : n < 2 ^ 31) : wrap32 n = n := by
  unfold wrap32
  omega

theorem wrap32_congr {a b : Int} (h : a % 2 ^ 32 = b % 2 ^ 32) : wrap32 a = wrap32 b := by
  unfold wrap32
  omega

theorem wrap32_emod (a : Int) : wrap32 a % 2 ^ 32 = a % 2 ^ 32 := by
  unfold wrap32
  omega

theorem wrap32_add_left (a b : Int) : wrap32 (wrap32 a + b) = wrap32 (a + b) := by
  unfold wrap32
  omega

theorem wrap32_sub_left (a b : Int) : wrap32 (wrap32 a - b) = wrap32 (a - b) := by
  unfold wrap32
  omega

theorem wrap32_add_right (a b : Int) : wrap32 (a + wrap32 b) = wrap32 (a + b) := by
  unfold wrap32
  omega

theorem wrap32_sub_right (a b : Int) : wrap32 (a - wrap32 b) = wrap32 (a - b) := by
  unfold wrap32
  omega

theorem wrap32_mul_left (a b : Int) : wrap32 (wrap32 a * b) = wrap32 (a * b) := by
  apply wrap32_congr
  exact Int.ModEq.mul_right b (wrap32_emod a)

theorem isDigit_toNat_bounds {c : Char} (h : c.isDigit = true) :
    48 ≤ c.toNat ∧ c.toNat ≤ 57 := by
  simp [Char.isDigit, Char.le_def, UInt32.le_def] at h
  exact ⟨h.1, h.2⟩

theorem utf8Size_eq_one {c : Char} (h : c.toNat ≤ 127) : c.utf8Size = 1 := by
  have hv : c.val ≤ 0x7F := by
    rw [UInt32.le_def]
    show c.toNat ≤ _
    norm_num
    omega
  simp [Char.utf8Size, hv]

theorem utf8Len_shift (s : List Char) : ∀ a : Nat,
    s.foldl (fun n c => n + c.utf8Size) a = a + utf8Len s := by
  induction s with
  | nil => intro a; simp [utf8Len]
  | cons c cs ih =>
    intro a
    show cs.foldl _ (a + c.utf8Size) = a + utf8Len (c :: cs)
    have h2 : utf8Len (c :: cs) = c.utf8Size + utf8Len cs := by
      show cs.foldl _ (0 + c.utf8Size) = _
      rw [ih (0 + c.utf8Size)]
      omega
    rw [ih (a + c.utf8Size), h2]
    omega

theorem utf8Len_eq_length {s : List Char} (h : ∀ c ∈ s, c.toNat ≤ 127) :
    utf8Len s = s.length := by
  induction s with
  | nil => rfl
  | cons c cs ih =>
    have h1 : c.utf8Size = 1 := utf8Size_eq_one (h c (by simp))
    show cs.foldl _ (0 + c.utf8Size) = _
    rw [utf8Len_shift cs (0 + c.utf8Size), ih (fun x hx => h x (by simp [hx])), h1]
    simp only [List.length_cons]
    omega

theorem utf8Len_ge_length (s : List Char) : s.length ≤ utf8Len s := by
  induction s with
  | nil => simp [utf8Len]
  | cons c cs ih =>
    show _ ≤ cs.foldl _ (0 + c.utf8Size)
    rw [utf8Len_shift cs (0 + c.utf8Size)]
    have := Char.utf8Size_pos c
    simp only [List.length_cons]
    omega

theorem parseLoop_digits (l : List Char) : ∀ (neg : Bool) (r p : Int),
    (∀ c ∈ l, c.isDigit = true) → -2 ^ 31 ≤ r → r < 2 ^ 31 →
    parseLoop l r p neg =
      some (wrap32 (r + (if neg then -1 else 1) * (p * digitsValRev l))) := by
  induction l with
  | nil =>
    intro neg r p _ h1 h2
    simp [parseLoop, digitsValRev, wrap32_eq_self h1 h2]
  | cons c cs ih =>
    intro neg r p hd h1 h2
    have hc : c.isDigit = true := hd c (by simp)
    have hcs : ∀ x ∈ cs, x.isDigit = true := fun x hx => hd x (by simp [hx])
    have hdot : ¬(c = '.') := by
      intro h
      rw [h] at hc
      simp [Char.isDigit, Char.le_def, UInt32.le_def] at hc
    have hb := isDigit_toNat_bounds hc
    have hcast : ((c.toNat - 48 : Nat) : Int) = (c.toNat : Int) - 48 := by omega
    have hdv0 : (0 : Int) ≤ ((c.toNat - 48 : Nat) : Int) := by omega
    have hdv9 : ((c.toNat - 48 : Nat) : Int) ≤ 9 := by omega
    rw [parseLoop, if_neg hdot]
    simp only [toDigit10, hc, if_true]
    have hV : wrap32 (p * 10) * digitsValRev cs ≡ p * 10 * digitsValRev cs [ZMOD 2 ^ 32] :=
      Int.ModEq.mul_right _ (wrap32_emod _)
    rw [digitsValRev]
    cases neg with
    | false =>
      simp only [if_neg Bool.false_ne_true]
      rw [ih false _ _ hcs (wrap32_range _).1 (wrap32_range _).2]
      simp only [if_neg Bool.false_ne_true, one_mul]
      rw [wrap32_add_left]
      congr 1
      apply wrap32_congr
      calc r + wrap32 (((c.toNat - 48 : Nat) : Int) * p) + wrap32 (p * 10) * digitsValRev cs
          ≡ r + ((c.toNat - 48 : Nat) : Int) * p + p * 10 * digitsValRev cs [ZMOD 2 ^ 32] :=
            Int.ModEq.add (Int.ModEq.add_left r (wrap32_emod _)) hV
        _ = r + p * (((c.toNat : Int) - 48) + 10 * digitsValRev cs) := by rw [hcast]; ring
    | true =>
      rw [if_pos rfl]
      rw [ih true _ _ hcs (wrap32_range _).1 (wrap32_range _).2]
      rw [if_pos rfl]
      rw [wrap32_add_left]
      congr 1
      apply wrap32_congr
      calc r - wrap32 (((c.toNat - 48 : Nat) : Int) * p) + -1 * (wrap32 (p * 10) * digitsValRev cs)
          ≡ r - ((c.toNat - 48 : Nat) : Int) * p + -1 * (p * 10 * digitsValRev cs) [ZMOD 2 ^ 32] :=
            Int.ModEq.add (Int.ModEq.sub (Int.ModEq.refl r) (wrap32_emod _))
              (Int.ModEq.mul_left (-1) hV)
        _ = r + -1 * (p * (((c.toNat : Int) - 48) + 10 * digitsValRev cs)) := by rw [hcast]; ring

theorem parseLoop_bad : ∀ (l : List Char), (∃ c ∈ l, c.isDigit = false ∧ c ≠ '.') →
    ∀ (r p : Int) (neg : Bool), parseLoop l r p neg = none := by
  intro l
  induction l with
  | nil =>
    rintro ⟨c, hc, _⟩
    simp at hc
  | cons c cs ih =>
    rintro ⟨x, hx, hbad1, hbad2⟩ r p neg
    by_cases hdot : c = '.'
    · subst hdot
      rw [parseLoop, if_pos rfl]
      apply ih
      rcases List.mem_cons.mp hx with h1 | h1
      · exact absurd h1 hbad2
      · exact ⟨x, h1, hbad1, hbad2⟩
    · rw [parseLoop, if_neg hdot]
      by_cases hdig : c.isDigit = true
      · simp only [toDigit10, hdig, if_true]
        apply ih
        rcases List.mem_cons.mp hx with h1 | h1
        · rw [h1] at hbad1
          rw [hbad1] at hdig
          exact absurd hdig (by simp)
        · exact ⟨x, h1, hbad1, hbad2⟩
      · simp only [Bool.not_eq_true] at hdig
        simp [toDigit10, hdig]

theorem intValMS_append (xs : List Char) (c : Char) :
    intValMS (xs ++ [c]) = 10 * intValMS xs + ((c.toNat : Int) - 48) := by
  induction xs with
  | nil => simp [intValMS]
  | cons x xs ih =>
    show ((x.toNat : Int) - 48) * 10 ^ (xs ++ [c]).length + intValMS (xs ++ [c]) = _
    rw [ih, List.length_append, List.length_singleton, pow_succ]
    show _ = 10 * (((x.toNat : Int) - 48) * 10 ^ xs.length + intValMS xs) + _
    ring

theorem digitsValRev_eq (l : List Char) : digitsValRev l = intValMS l.reverse := by
  induction l with
  | nil => rfl
  | cons c cs ih =>
    rw [digitsValRev, ih, List.reverse_cons, intValMS_append]
    ring

theorem shapePos_elim {s : List Char} (hs : shapePos s = true) :
    ∃ d rest, s.reverse = d :: '.' :: rest ∧ d.isDigit = true ∧ rest ≠ [] ∧
      ∀ c ∈ rest, c.isDigit = true := by
  unfold shapePos at hs
  split at hs
  next d dot rest heq =>
    simp only [Bool.and_eq_true, decide_eq_true_eq, Bool.not_eq_true', List.all_eq_true] at hs
    obtain ⟨⟨⟨h1, h2⟩, h3⟩, h4⟩ := hs
    refine ⟨d, rest, ?_, h1, ?_, h4⟩
    · rw [heq, h2]
    · simpa using h3
  next => exact absurd hs (by simp)

theorem digit_toNat_le {c : Char} (h : c.isDigit = true) : c.toNat ≤ 127 := by
  have := isDigit_toNat_bounds h
  omega

theorem digit_ne_dash {c : Char} (h : c.isDigit = true) : c ≠ '-' := by
  intro he
  rw [he] at h
  simp [Char.isDigit, Char.le_def, UInt32.le_def] at h

theorem shapePos_ascii {s : List Char} (hs : shapePos s = true) :
    ∀ c ∈ s, c.toNat ≤ 127 := by
  obtain ⟨d, rest, hrev, hd, _, hall⟩ := shapePos_elim hs
  intro c hc
  have hc2 : c ∈ s.reverse := List.mem_reverse.mpr hc
  rw [hrev] at hc2
  rcases List.mem_cons.mp hc2 with h1 | h1
  · rw [h1]; exact digit_toNat_le hd
  · rcases List.mem_cons.mp h1 with h2 | h2
    · rw [h2]; decide
    · exact digit_toNat_le (hall c h2)

theorem valPos_of_rev {s : List Char} {d dot : Char} {rest : List Char}
    (h : s.reverse = d :: dot :: rest) :
    valPos s = 10 * intValMS rest.reverse + ((d.toNat : Int) - 48) := by
  unfold valPos
  rw [h]

theorem dot_not_digit : ('.' : Char).isDigit = false := by decide

theorem parseLoop_shaped {d : Char} {rest : List Char} (hd : d.isDigit = true)
    (hall : ∀ c ∈ rest, c.isDigit = true) (neg : Bool) :
    parseLoop (d :: '.' :: rest) 0 1 neg =
      some (wrap32 ((if neg then -1 else 1) *
        (((d.toNat : Int) - 48) + 10 * digitsValRev rest))) := by
  have hb := isDigit_toNat_bounds hd
  have hdot : ¬(d = '.') := by
    intro h
    rw [h] at hd
    exact absurd hd (by simp [dot_not_digit])
  have hcast : ((d.toNat - 48 : Nat) : Int) = (d.toNat : Int) - 48 := by omega
  have hDw : wrap32 (((d.toNat - 48 : Nat) : Int) * 1) = ((d.toNat - 48 : Nat) : Int) := by
    rw [mul_one]
    exact wrap32_eq_self (by omega) (by omega)
  rw [parseLoop, if_neg hdot]
  simp only [toDigit10, hd, if_true]
  rw [parseLoop, if_pos rfl]
  cases neg with
  | false =>
    simp only [if_neg Bool.false_ne_true]
    rw [hDw]
    rw [wrap32_eq_self (n := (0 : Int) + ((d.toNat - 48 : Nat) : Int)) (by omega) (by omega)]
    rw [parseLoop_digits rest false _ _ hall (by omega) (by omega)]
    simp only [if_neg Bool.false_ne_true, one_mul]
    rw [wrap32_eq_self (n := (10 : Int)) (by omega) (by omega)]
    have h9 : (0 : Int) + ((d.toNat - 48 : Nat) : Int) + 10 * digitsValRev rest =
        ((d.toNat : Int) - 48) + 10 * digitsValRev rest := by omega
    rw [h9]
  | true =>
    rw [if_pos rfl, hDw]
    rw [wrap32_eq_self (n := (0 : Int) - ((d.toNat - 48 : Nat) : Int)) (by omega) (by omega)]
    rw [parseLoop_digits rest true _ _ hall (by omega) (by omega)]
    rw [if_pos rfl]
    rw [wrap32_eq_self (n := (1 : Int) * 10) (by omega) (by omega)]
    have h9 : (0 : Int) - ((d.toNat - 48 : Nat) : Int) + -1 * (1 * 10 * digitsValRev rest) =
        -1 * (((d.toNat : Int) - 48) + 10 * digitsValRev rest) := by
      rw [hcast]
      ring
    rw [h9]

theorem parse_pos {s : List Char} (hs : shapePos s = true) :
    parse_i32 s = some (wrap32 (valPos s)) := by
  obtain ⟨d, rest, hrev, hd, hne, hall⟩ := shapePos_elim hs
  have hs_eq2 : s = rest.reverse ++ ['.', d] := by
    rw [← List.reverse_reverse s, hrev]
    simp
  rcases hr : rest.reverse with _ | ⟨h0, rtail⟩
  · exact absurd (by simpa using hr) hne
  · have hs_cons : s = h0 :: (rtail ++ ['.', d]) := by rw [hs_eq2, hr]; rfl
    have hh0 : h0.isDigit = true := hall h0 (by rw [← List.mem_reverse, hr]; simp)
    have hh0d : h0 ≠ '-' := digit_ne_dash hh0
    rw [hs_cons, parse_i32, if_neg hh0d, ← hs_cons]
    rw [hrev, parseLoop_shaped hd hall false]
    have h9 : (if (false : Bool) then (-1 : Int) else 1) *
        (((d.toNat : Int) - 48) + 10 * digitsValRev rest) = valPos s := by
      rw [if_neg Bool.false_ne_true, valPos_of_rev hrev, digitsValRev_eq]
      ring
    rw [h9]

theorem parse_neg {rest : List Char} (hs : shapePos rest = true) :
    parse_i32 ('-' :: rest) = some (wrap32 (- valPos rest)) := by
  obtain ⟨d, r2, hrev, hd, hne, hall⟩ := shapePos_elim hs
  have hlen : utf8Len ('-' :: rest) = rest.length + 1 := by
    have hall2 : ∀ c ∈ ('-' :: rest), c.toNat ≤ 127 := by
      intro c hc
      rcases List.mem_cons.mp hc with h1 | h1
      · rw [h1]; decide
      · exact shapePos_ascii hs c h1
    rw [utf8Len_eq_length hall2]
    simp
  rw [parse_i32, if_pos rfl]
  have htake : (('-' :: rest).reverse).take (utf8Len ('-' :: rest) - 1) = rest.reverse := by
    rw [hlen]
    simp only [Nat.add_sub_cancel, List.reverse_cons]
    have hl : rest.length = rest.reverse.length := by simp
    rw [hl, List.take_left]
  rw [htake, hrev, parseLoop_shaped hd hall true]
  have h9 : (if (true : Bool) then (-1 : Int) else 1) *
      (((d.toNat : Int) - 48) + 10 * digitsValRev r2) = - valPos rest := by
    rw [if_pos rfl, valPos_of_rev hrev, digitsValRev_eq]
    ring
  rw [h9]

theorem matchesShape_dash (rest : List Char) : matchesShape ('-' :: rest) = shapePos rest := rfl

theorem scaledIntVal_dash (rest : List Char) : scaledIntVal ('-' :: rest) = - valPos rest := rfl

theorem matchesShape_of_ne {c0 : Char} (rest : List Char) (h : c0 ≠ '-') :
    matchesShape (c0 :: rest) = shapePos (c0 :: rest) := by
  unfold matchesShape
  split
  next heq =>
    injection heq with h1 h2
    exact absurd h1 h
  next => rfl

theorem scaledIntVal_of_ne {c0 : Char} (rest : List Char) (h : c0 ≠ '-') :
    scaledIntVal (c0 :: rest) = valPos (c0 :: rest) := by
  unfold scaledIntVal
  split
  next heq =>
    injection heq with h1 h2
    exact absurd h1 h
  next => rfl

theorem parse_i32_shaped {s : List Char} (hs : matchesShape s = true) :
    parse_i32 s = some (wrap32 (scaledIntVal s)) := by
  rcases s with _ | ⟨c0, rest⟩
  · exact absurd hs (by decide)
  · by_cases hc : c0 = '-'
    · subst hc
      rw [matchesShape_dash] at hs
      rw [scaledIntVal_dash]
      exact parse_neg hs
    · rw [matchesShape_of_ne rest hc] at hs
      rw [scaledIntVal_of_ne rest hc]
      exact parse_pos hs

/-- C1 (amended): for every string matching `-?\d+\.\d` whose scaled decimal
value fits in the `i32` range, `parse_i32` returns exactly that value, i.e.
the decimal value of the string multiplied by 10, with no loss of precision. -/
theorem C1_decoder_exact_on_range (s : List Char) (h1 : matchesShape s = true)
    (h2 : -2 ^ 31 ≤ scaledIntVal s) (h3 : scaledIntVal s < 2 ^ 31) :
    parse_i32 s = some (scaledIntVal s) := by
  rw [parse_i32_shaped h1, wrap32_eq_self h2 h3]

/-- Witness for C1: `parse_i32 "-2.5" = -25`, obtained from the amended
theorem at a concrete input. -/
theorem C1_decoder_exact_on_range_witness :
    matchesShape "-2.5".toList = true ∧ parse_i32 "-2.5".toList = some (-25) := by
  constructor
  · decide
  · rw [C1_decoder_exact_on_range "-2.5".toList (by decide) (by decide) (by decide)]
    decide

/-- C1 counterexample: `"1000000000.0"` matches `-?\d+\.\d` but its scaled
value `10000000000` overflows `i32`; the decoder wraps and returns
`1410065408`, so the claim as stated (exactness for every matching string)
is false. -/
theorem C1_overflow_counterexample :
    matchesShape "1000000000.0".toList = true ∧
    parse_i32 "1000000000.0".toList ≠ some (scaledIntVal "1000000000.0".toList) :=
  ⟨by decide, by decide⟩

/-- C10 (amended): any scanned character (every character after the first when
the string starts with `'-'`, and at least every character after the first
otherwise) that is neither a decimal digit nor `'.'` makes the decoder panic
(`to_digit(10).unwrap()`), modelled as `none`: a fatal input-format violation
that terminates the run. -/
theorem C10_bad_char_fatal (c0 : Char) (cs : List Char)
    (h : ∃ c ∈ cs, c.isDigit = false ∧ c ≠ '.') :
    parse_i32 (c0 :: cs) = none := by
  rw [parse_i32]
  obtain ⟨x, hx, hb1, hb2⟩ := h
  by_cases hc : c0 = '-'
  · rw [if_pos hc]
    apply parseLoop_bad
    refine ⟨x, ?_, hb1, hb2⟩
    have h1 := utf8Len_ge_length (c0 :: cs)
    simp only [List.length_cons] at h1
    have hk : cs.reverse.length ≤ utf8Len (c0 :: cs) - 1 := by
      simp only [List.length_reverse]
      omega
    have hr : (c0 :: cs).reverse = cs.reverse ++ [c0] := by simp
    rw [hr, List.take_append_eq_append_take, List.take_of_length_le hk]
    exact List.mem_append_left _ (List.mem_reverse.mpr hx)
  · rw [if_neg hc]
    apply parseLoop_bad
    refine ⟨x, ?_, hb1, hb2⟩
    rw [List.mem_reverse]
    exact List.mem_cons_of_mem _ hx

/-- Witness for C10: `"1a.0"` contains the non-digit `'a'`, and the decoder
panics (returns `none`). -/
theorem C10_bad_char_fatal_witness :
    (∃ c ∈ "a.0".toList, c.isDigit = false ∧ c ≠ '.') ∧
    parse_i32 ('1' :: "a.0".toList) = none :=
  ⟨by decide, C10_bad_char_fatal '1' "a.0".toList (by decide)⟩

/-- C10 counterexample: `"1.23"` does not match the shape `-?\d+\.\d` (two
fractional digits) and uses only characters from `[-0-9.]`, yet the decoder
silently returns `123` instead of failing, so the claim that every
shape-violating value string is a fatal violation is false. -/
theorem C10_silent_decode_counterexample :
    matchesShape "1.23".toList = false ∧
    (∀ c ∈ "1.23".toList, c.isDigit = true ∨ c = '.' ∨ c = '-') ∧
    parse_i32 "1.23".toList = some 123 :=
  ⟨by decide, by decide, by decide⟩

theorem union_min_eq (a b : Data) : (a.union b).min = min a.min b.min := by
  show (if a.min < b.min then a.min else b.min) = _
  rcases lt_trichotomy a.min b.min with h | h | h
  · rw [if_pos h, min_eq_left h.le]
  · rw [h]
    simp
  · rw [if_neg (not_lt.mpr h.le), min_eq_right h.le]

theorem union_max_eq (a b : Data) : (a.union b).max = max a.max b.max := by
  show (if b.max < a.max then a.max else b.max) = _
  rcases lt_trichotomy b.max a.max with h | h | h
  · rw [if_pos h, max_eq_left h.le]
  · rw [h]
    simp
  · rw [if_neg (not_lt.mpr h.le), max_eq_right h.le]

theorem union_sum_eq (a b : Data) : (a.union b).sum = wrap32 (a.sum + b.sum) := rfl

theorem union_count_eq (a b : Data) : (a.union b).count = (a.count + b.count) % 2 ^ 32 := rfl

theorem union_assoc (A B C : Data) : (A.union B).union C = A.union (B.union C) := by
  refine Data.ext ?_ ?_ ?_ ?_
  · show wrap32 ((A.union B).sum + C.sum) = wrap32 (A.sum + (B.union C).sum)
    rw [union_sum_eq, union_sum_eq, wrap32_add_left, wrap32_add_right, add_assoc]
  · show ((A.count + B.count) % 2 ^ 32 + C.count) % 2 ^ 32 =
      (A.count + (B.count + C.count) % 2 ^ 32) % 2 ^ 32
    omega
  · rw [union_min_eq, union_min_eq, union_min_eq, union_min_eq, min_assoc]
  · rw [union_max_eq, union_max_eq, union_max_eq, union_max_eq, max_assoc]

theorem union_comm (A B : Data) : A.union B = B.union A := by
  refine Data.ext ?_ ?_ ?_ ?_
  · show wrap32 (A.sum + B.sum) = wrap32 (B.sum + A.sum)
    rw [add_comm]
  · show (A.count + B.count) % 2 ^ 32 = (B.count + A.count) % 2 ^ 32
    omega
  · rw [union_min_eq, union_min_eq, min_comm]
  · rw [union_max_eq, union_max_eq, max_comm]

/-- C5: the `Data::union` operation is commutative and associative on all
four fields: for any aggregates `A`, `B`, `C`,
`union(union(A,B),C) = union(A,union(B,C)) = union(union(A,C),B)`
as complete `Data` values (hence on `sum`, `count`, `min` and `max`). -/
theorem C5_union_comm_assoc (A B C : Data) :
    (A.union B).union C = A.union (B.union C) ∧
    (A.union B).union C = (A.union C).union B := by
  constructor
  · exact union_assoc A B C
  · rw [union_assoc, union_assoc, union_comm B C]

/-- C2 counterexample: for the three-line input `A;1.0 B;-2.5 A;3.0` the
program does NOT print `A=1.0/2.0/3.0` and `B=-2.5, -2.5, -2.5`: min and max go
through Rust's default float `Display`, which drops the trailing `.0` of
integral values, so the claimed rendering (exactly one fractional digit for
min and max) is false. -/
theorem C2_one_decimal_counterexample :
    process_file (strBytes "A;1.0\nB;-2.5\nA;3.0\n") ≠
      some "\x7bA=1.0/2.0/3.0, B=-2.5/-2.5/-2.5\x7d\n" := by decide

/-- C2 (amended): `min` and `max` are rendered through Rust's default float
display (dropping a trailing `.0`), the mean through `{:.1}` with exactly one
fractional digit; for the input `A;1.0 B;-2.5 A;3.0` the map-form output is
exactly `A=1/2.0/3` and `B=-2.5, -2.5, -2.5` in braces followed by a newline. -/
theorem C2_report_rendering :
    process_file (strBytes "A;1.0\nB;-2.5\nA;3.0\n") =
      some "\x7bA=1/2.0/3, B=-2.5/-2.5/-2.5\x7d\n" := by decide

theorem update_sum_eq (d : Data) (v : Int) : (d.update v).sum = wrap32 (d.sum + v) := rfl

theorem update_count_eq (d : Data) (v : Int) : (d.update v).count = (d.count + 1) % 2 ^ 32 := rfl

theorem update_min_eq (d : Data) (v : Int) : (d.update v).min = min v d.min := by
  show (if v < d.min then v else d.min) = _
  rcases lt_trichotomy v d.min with h | h | h
  · rw [if_pos h, min_eq_left h.le]
  · rw [h]
    simp
  · rw [if_neg (not_lt.mpr h.le), min_eq_right h.le]

theorem update_max_eq {d : Data} (hd : d.wf) (v : Int) : (d.update v).max = max v d.max := by
  show (if v < d.min then d.max else if d.max < v then v else d.max) = _
  by_cases h1 : v < d.min
  · rw [if_pos h1, max_eq_right (le_trans h1.le hd)]
  · rw [if_neg h1]
    rcases lt_trichotomy d.max v with h | h | h
    · rw [if_pos h, max_eq_left h.le]
    · rw [h]
      simp
    · rw [if_neg (not_lt.mpr h.le), max_eq_right h.le]

theorem wf_seed (v : Int) : (seedData v).wf := le_refl v

theorem wf_update {d : Data} (hd : d.wf) (v : Int) : (d.update v).wf := by
  show (d.update v).min ≤ (d.update v).max
  rw [update_min_eq, update_max_eq hd]
  exact le_trans (min_le_left _ _) (le_max_left _ _)

theorem wf_union {a b : Data} (ha : a.wf) (_hb : b.wf) : (a.union b).wf := by
  show (a.union b).min ≤ (a.union b).max
  rw [union_min_eq, union_max_eq]
  exact le_trans (min_le_left _ _) (le_trans ha (le_max_left _ _))

theorem union_seed_eq_update {a : Data} (ha : a.wf) (v : Int) :
    a.union (seedData v) = a.update v := by
  refine Data.ext ?_ ?_ ?_ ?_
  · rfl
  · rfl
  · rw [union_min_eq, update_min_eq]
    show min a.min v = min v a.min
    exact min_comm _ _
  · rw [union_max_eq, update_max_eq ha]
    show max a.max v = max v a.max
    exact max_comm _ _

theorem union_update_right {a b : Data} (ha : a.wf) (hb : b.wf) (v : Int) :
    a.union (b.update v) = (a.union b).update v := by
  refine Data.ext ?_ ?_ ?_ ?_
  · show wrap32 (a.sum + wrap32 (b.sum + v)) = wrap32 (wrap32 (a.sum + b.sum) + v)
    rw [wrap32_add_right, wrap32_add_left, add_assoc]
  · show (a.count + (b.count + 1) % 2 ^ 32) % 2 ^ 32 = ((a.count + b.count) % 2 ^ 32 + 1) % 2 ^ 32
    omega
  · rw [union_min_eq, update_min_eq, update_min_eq, union_min_eq]
    exact min_left_comm _ _ _
  · rw [union_max_eq, update_max_eq hb, update_max_eq (wf_union ha hb), union_max_eq]
    exact max_left_comm _ _ _

theorem wf_updFold {d : Data} (hd : d.wf) (vs : List Int) : (updFold d vs).wf := by
  induction vs generalizing d with
  | nil => exact hd
  | cons v vs ih => exact ih (wf_update hd v)

theorem union_updFold {a b : Data} (ha : a.wf) (hb : b.wf) (vs : List Int) :
    a.union (updFold b vs) = updFold (a.union b) vs := by
  induction vs generalizing b with
  | nil => rfl
  | cons v vs ih =>
    show a.union (updFold (b.update v) vs) = updFold ((a.union b).update v) vs
    rw [ih (wf_update hb v), union_update_right ha hb]

theorem mergeAgg_none_right (x : Option Data) : mergeAgg x none = x := by
  cases x <;> rfl

theorem aggOf_wf {vs : List Int} {d : Data} (h : aggOf vs = some d) : d.wf := by
  cases vs with
  | nil => exact absurd h (by simp [aggOf])
  | cons v vs =>
    have : d = updFold (seedData v) vs := by
      have h2 : some (updFold (seedData v) vs) = some d := h
      exact (Option.some.injEq _ _ ▸ h2).symm
    rw [this]
    exact wf_updFold (wf_seed v) vs

theorem mergeAgg_aggOf (xs ys : List Int) :
    mergeAgg (aggOf xs) (aggOf ys) = aggOf (xs ++ ys) := by
  cases xs with
  | nil => rfl
  | cons x xs =>
    cases ys with
    | nil =>
      show mergeAgg (some _) none = _
      rw [mergeAgg_none_right, List.append_nil]
      rfl
    | cons y ys =>
      show some ((updFold (seedData x) xs).union (updFold (seedData y) ys)) = _
      rw [union_updFold (wf_updFold (wf_seed x) xs) (wf_seed y),
        union_seed_eq_update (wf_updFold (wf_seed x) xs)]
      show some (List.foldl Data.update ((updFold (seedData x) xs).update y) ys) =
        some (List.foldl Data.update (seedData x) (xs ++ y :: ys))
      rw [List.foldl_append]
      rfl

theorem mergeAgg_assoc (x y z : Option Data) :
    mergeAgg (mergeAgg x y) z = mergeAgg x (mergeAgg y z) := by
  cases x with
  | none => rfl
  | some a =>
    cases y with
    | none => rfl
    | some b =>
      cases z with
      | none => rfl
      | some c =>
        show some ((a.union b).union c) = some (a.union (b.union c))
        rw [union_assoc]

theorem lookup_upsert_self (m : Table) (k : List Nat) (v : Int) :
    lookupT (upsert m k v) k = combineAcc (lookupT m k) [v] := by
  induction m with
  | nil =>
    show lookupT [(k, seedData v)] k = _
    simp [lookupT, combineAcc, updFold, aggOf]
  | cons e rest ih =>
    by_cases h : e.1 = k
    · rw [upsert, if_pos h, lookupT, if_pos h, lookupT, if_pos h]
      rfl
    · rw [upsert, if_neg h, lookupT, if_neg h, lookupT, if_neg h, ih]

theorem lookup_upsert_ne {m : Table} {q k : List Nat} (h : q ≠ k) (v : Int) :
    lookupT (upsert m q v) k = lookupT m k := by
  induction m with
  | nil =>
    show lookupT [(q, seedData v)] k = _
    simp [lookupT, h]
  | cons e rest ih =>
    by_cases he : e.1 = q
    · rw [upsert, if_pos he, lookupT, lookupT]
      have : ¬(e.1 = k) := by rw [he]; exact h
      rw [if_neg this, if_neg this]
    · rw [upsert, if_neg he, lookupT, lookupT]
      by_cases hk : e.1 = k
      · rw [if_pos hk, if_pos hk]
      · rw [if_neg hk, if_neg hk, ih]

theorem lookup_foldl_upsert (recs : List (List Nat × Int)) :
    ∀ (m : Table) (k : List Nat),
      lookupT (recs.foldl (fun m r => upsert m r.1 r.2) m) k =
        combineAcc (lookupT m k) (valuesOf recs k) := by
  induction recs with
  | nil =>
    intro m k
    cases h : lookupT m k <;> simp [valuesOf, combineAcc, updFold, h, aggOf]
  | cons r recs ih =>
    intro m k
    show lookupT (recs.foldl _ (upsert m r.1 r.2)) k = _
    rw [ih]
    by_cases h : r.1 = k
    · have hv : valuesOf (r :: recs) k = r.2 :: valuesOf recs k := by
        simp [valuesOf, h]
      rw [hv, h, lookup_upsert_self]
      cases hlk : lookupT m k <;> rfl
    · have hv : valuesOf (r :: recs) k = valuesOf recs k := by
        simp [valuesOf, h]
      rw [hv, lookup_upsert_ne h]

theorem lookup_processRecords (recs : List (List Nat × Int)) (k : List Nat) :
    lookupT (processRecords recs) k = aggOf (valuesOf recs k) := by
  show lookupT (recs.foldl _ []) k = _
  rw [lookup_foldl_upsert]
  rfl

theorem lookup_upsertUnion_self (m : Table) (k : List Nat) (d : Data) :
    lookupT (upsertUnion m k d) k = mergeAgg (lookupT m k) (some d) := by
  induction m with
  | nil =>
    show lookupT [(k, d)] k = _
    simp [lookupT, mergeAgg]
  | cons e rest ih =>
    by_cases h : e.1 = k
    · rw [upsertUnion, if_pos h, lookupT, if_pos h, lookupT, if_pos h]
      rfl
    · rw [upsertUnion, if_neg h, lookupT, if_neg h, lookupT, if_neg h, ih]

theorem lookup_upsertUnion_ne {m : Table} {q k : List Nat} (h : q ≠ k) (d : Data) :
    lookupT (upsertUnion m q d) k = lookupT m k := by
  induction m with
  | nil =>
    show lookupT [(q, d)] k = _
    simp [lookupT, h]
  | cons e rest ih =>
    by_cases he : e.1 = q
    · rw [upsertUnion, if_pos he, lookupT, lookupT]
      have : ¬(e.1 = k) := by rw [he]; exact h
      rw [if_neg this, if_neg this]
    · rw [upsertUnion, if_neg he, lookupT, lookupT]
      by_cases hk : e.1 = k
      · rw [if_pos hk, if_pos hk]
      · rw [if_neg hk, if_neg hk, ih]

theorem lookup_none_of_not_mem {m : Table} {k : List Nat}
    (h : k ∉ m.map Prod.fst) : lookupT m k = none := by
  induction m with
  | nil => rfl
  | cons e rest ih =>
    simp only [List.map_cons, List.mem_cons] at h
    push_neg at h
    rw [lookupT, if_neg (fun he => h.1 he.symm)]
    exact ih h.2

theorem lookup_unionInto (t : Table) : ∀ (m : Table) (k : List Nat),
    ((t.map Prod.fst).Nodup) →
    lookupT (t.foldl (fun m e => upsertUnion m e.1 e.2) m) k =
      mergeAgg (lookupT m k) (lookupT t k) := by
  induction t with
  | nil =>
    intro m k _
    show lookupT m k = mergeAgg (lookupT m k) none
    rw [mergeAgg_none_right]
  | cons e t ih =>
    intro m k hnd
    simp only [List.map_cons, List.nodup_cons] at hnd
    show lookupT (t.foldl _ (upsertUnion m e.1 e.2)) k = _
    rw [ih _ k hnd.2]
    by_cases h : e.1 = k
    · rw [h, lookup_upsertUnion_self]
      have ht : lookupT t k = none := lookup_none_of_not_mem (h ▸ hnd.1)
      rw [ht, mergeAgg_none_right, lookupT, if_pos h]
    · rw [lookup_upsertUnion_ne h, lookupT, if_neg h]

theorem lookup_mergeTables_fold (ts : List Table) : ∀ (m : Table) (k : List Nat),
    (∀ t ∈ ts, ((t.map Prod.fst).Nodup)) →
    lookupT (ts.foldl (fun m t => t.foldl (fun m e => upsertUnion m e.1 e.2) m) m) k =
      ts.foldl (fun acc t => mergeAgg acc (lookupT t k)) (lookupT m k) := by
  induction ts with
  | nil => intro m k _; rfl
  | cons t ts ih =>
    intro m k h
    show lookupT (ts.foldl _ (t.foldl _ m)) k = _
    rw [ih _ k (fun u hu => h u (List.mem_cons_of_mem _ hu)),
      lookup_unionInto t m k (h t (List.mem_cons_self _ _))]
    rfl

theorem mem_keys_upsert (m : Table) (k : List Nat) (v : Int) (x : List Nat) :
    x ∈ (upsert m k v).map Prod.fst ↔ x ∈ m.map Prod.fst ∨ x = k := by
  induction m with
  | nil => simp [upsert]
  | cons e rest ih =>
    by_cases h : e.1 = k
    · rw [upsert, if_pos h]
      simp only [List.map_cons, List.mem_cons, ih]
      constructor
      · rintro (h1 | h1)
        · exact Or.inl (Or.inl h1)
        · exact Or.inl (Or.inr h1)
      · rintro ((h1 | h1) | h1)
        · exact Or.inl h1
        · exact Or.inr h1
        · rw [h1, ← h]
          exact Or.inl rfl
    · rw [upsert, if_neg h]
      simp only [List.map_cons, List.mem_cons, ih]
      tauto

theorem nodup_keys_upsert (m : Table) (k : List Nat) (v : Int)
    (h : (m.map Prod.fst).Nodup) : ((upsert m k v).map Prod.fst).Nodup := by
  induction m with
  | nil => simp [upsert]
  | cons e rest ih =>
    simp only [List.map_cons, List.nodup_cons] at h
    by_cases he : e.1 = k
    · rw [upsert, if_pos he]
      simp only [List.map_cons, List.nodup_cons]
      exact h
    · rw [upsert, if_neg he]
      simp only [List.map_cons, List.nodup_cons]
      constructor
      · intro hmem
        rcases (mem_keys_upsert rest k v e.1).mp hmem with h1 | h1
        · exact h.1 h1
        · exact he h1
      · exact ih h.2

theorem nodup_keys_processRecords (recs : List (List Nat × Int)) :
    ((processRecords recs).map Prod.fst).Nodup := by
  have hgen : ∀ (m : Table), (m.map Prod.fst).Nodup →
      (((recs.foldl (fun m r => upsert m r.1 r.2) m)).map Prod.fst).Nodup := by
    induction recs with
    | nil => intro m h; exact h
    | cons r recs ih =>
      intro m h
      exact ih _ (nodup_keys_upsert m r.1 r.2 h)
  exact hgen [] (by simp)

theorem foldl_mergeAgg_batches (bss : List (List (List Nat × Int))) (k : List Nat) :
    ∀ x : Option Data,
      (bss.map processRecords).foldl (fun acc t => mergeAgg acc (lookupT t k)) x =
        mergeAgg x (aggOf (valuesOf bss.flatten k)) := by
  induction bss with
  | nil =>
    intro x
    show x = mergeAgg x (aggOf (valuesOf List.nil.flatten k))
    rw [show valuesOf List.nil.flatten k = [] from rfl]
    rw [show aggOf [] = none from rfl, mergeAgg_none_right]
  | cons b bss ih =>
    intro x
    show (bss.map processRecords).foldl _ (mergeAgg x (lookupT (processRecords b) k)) = _
    rw [ih, lookup_processRecords, mergeAgg_assoc, mergeAgg_aggOf]
    have hv : valuesOf b k ++ valuesOf bss.flatten k = valuesOf ((b :: bss).flatten) k := by
      rw [List.flatten_cons]
      exact (List.filterMap_append _ _ _).symm
    rw [hv]

theorem lookup_master (bss : List (List (List Nat × Int))) (k : List Nat) :
    lookupT (mergeTables (bss.map processRecords)) k = aggOf (valuesOf bss.flatten k) := by
  show lookupT ((bss.map processRecords).foldl _ []) k = _
  rw [lookup_mergeTables_fold _ [] k ?_]
  · rw [show lookupT [] k = none from rfl, foldl_mergeAgg_batches]
    rfl
  · intro t ht
    obtain ⟨b, _, hb⟩ := List.mem_map.mp ht
    rw [← hb]
    exact nodup_keys_processRecords b

theorem updFold_min {d : Data} (hd : d.wf) (vs : List Int) :
    (updFold d vs).min = vs.foldl min d.min := by
  induction vs generalizing d with
  | nil => rfl
  | cons v vs ih =>
    show (updFold (d.update v) vs).min = vs.foldl min (min d.min v)
    rw [ih (wf_update hd v), update_min_eq, min_comm v d.min]

theorem updFold_max {d : Data} (hd : d.wf) (vs : List Int) :
    (updFold d vs).max = vs.foldl max d.max := by
  induction vs generalizing d with
  | nil => rfl
  | cons v vs ih =>
    show (updFold (d.update v) vs).max = vs.foldl max (max d.max v)
    rw [ih (wf_update hd v), update_max_eq hd, max_comm v d.max]

theorem foldl_min_mem (vs : List Int) : ∀ a : Int, vs.foldl min a ∈ a :: vs := by
  induction vs with
  | nil => intro a; simp
  | cons v vs ih =>
    intro a
    show vs.foldl min (min a v) ∈ a :: v :: vs
    rcases List.mem_cons.mp (ih (min a v)) with h1 | h1
    · rcases min_choice a v with h2 | h2 <;> rw [h1, h2]
      · exact List.mem_cons_self _ _
      · exact List.mem_cons_of_mem _ (List.mem_cons_self _ _)
    · exact List.mem_cons_of_mem _ (List.mem_cons_of_mem _ h1)

theorem foldl_min_le_init (vs : List Int) : ∀ a : Int, vs.foldl min a ≤ a := by
  induction vs with
  | nil => intro a; exact le_refl a
  | cons v vs ih => intro a; exact le_trans (ih (min a v)) (min_le_left a v)

theorem foldl_min_le_mem (vs : List Int) : ∀ (a x : Int), x ∈ vs → vs.foldl min a ≤ x := by
  induction vs with
  | nil => intro a x hx; simp at hx
  | cons v vs ih =>
    intro a x hx
    rcases List.mem_cons.mp hx with h1 | h1
    · rw [h1]
      show vs.foldl min (min a v) ≤ v
      exact le_trans (foldl_min_le_init vs _) (min_le_right a v)
    · exact ih _ x h1

theorem foldl_max_mem (vs : List Int) : ∀ a : Int, vs.foldl max a ∈ a :: vs := by
  induction vs with
  | nil => intro a; simp
  | cons v vs ih =>
    intro a
    show vs.foldl max (max a v) ∈ a :: v :: vs
    rcases List.mem_cons.mp (ih (max a v)) with h1 | h1
    · rcases max_choice a v with h2 | h2 <;> rw [h1, h2]
      · exact List.mem_cons_self _ _
      · exact List.mem_cons_of_mem _ (List.mem_cons_self _ _)
    · exact List.mem_cons_of_mem _ (List.mem_cons_of_mem _ h1)

theorem foldl_max_ge_init (vs : List Int) : ∀ a : Int, a ≤ vs.foldl max a := by
  induction vs with
  | nil => intro a; exact le_refl a
  | cons v vs ih => intro a; exact le_trans (le_max_left a v) (ih (max a v))

theorem foldl_max_ge_mem (vs : List Int) : ∀ (a x : Int), x ∈ vs → x ≤ vs.foldl max a := by
  induction vs with
  | nil => intro a x hx; simp at hx
  | cons v vs ih =>
    intro a x hx
    rcases List.mem_cons.mp hx with h1 | h1
    · rw [h1]
      show v ≤ vs.foldl max (max a v)
      exact le_trans (le_max_right a v) (foldl_max_ge_init vs _)
    · exact ih _ x h1

theorem updFold_sum {d : Data} (h1 : -2 ^ 31 ≤ d.sum) (h2 : d.sum < 2 ^ 31) (vs : List Int) :
    (updFold d vs).sum = wrap32 (d.sum + vs.sum) := by
  induction vs generalizing d with
  | nil =>
    show d.sum = wrap32 (d.sum + List.sum [])
    rw [List.sum_nil, add_zero, wrap32_eq_self h1 h2]
  | cons v vs ih =>
    show (updFold (d.update v) vs).sum = _
    have hs : (d.update v).sum = wrap32 (d.sum + v) := update_sum_eq d v
    rw [ih (by rw [hs]; exact (wrap32_range _).1) (by rw [hs]; exact (wrap32_range _).2),
      hs, wrap32_add_left, List.sum_cons, add_assoc]

theorem updFold_sum_exact (vs : List Int) : ∀ (d : Data),
    (∀ n, n ≤ vs.length →
      -2 ^ 31 ≤ d.sum + ((vs.take n).sum) ∧ d.sum + ((vs.take n).sum) < 2 ^ 31) →
    (updFold d vs).sum = d.sum + vs.sum := by
  induction vs with
  | nil =>
    intro d _
    show d.sum = d.sum + List.sum []
    rw [List.sum_nil, add_zero]
  | cons v vs ih =>
    intro d h
    have h0 := h 1 (by simp)
    simp only [List.take_succ_cons, List.take_zero, List.sum_cons, List.sum_nil, add_zero] at h0
    have hupd : (d.update v).sum = d.sum + v := by
      rw [update_sum_eq, wrap32_eq_self h0.1 h0.2]
    have hpre : ∀ n, n ≤ vs.length →
        -2 ^ 31 ≤ (d.update v).sum + ((vs.take n).sum) ∧
          (d.update v).sum + ((vs.take n).sum) < 2 ^ 31 := by
      intro n hn
      have hn1 := h (n + 1) (by simp [hn])
      rw [List.take_succ_cons, List.sum_cons] at hn1
      rw [hupd]
      constructor <;> omega
    show (updFold (d.update v) vs).sum = _
    rw [ih (d.update v) hpre, hupd, List.sum_cons]
    ring

/-- C7: the `min` and `max` of a key's aggregate in the merged master table
equal the true minimum and maximum over all scaled values observed for that
key across all batches (seed-then-compare in `Data::update`, preserved by
`Data::union` during the merge). -/
theorem C7_min_max_fidelity (bss : List (List (List Nat × Int))) (k : List Nat) (d : Data)
    (h : lookupT (mergeTables (bss.map processRecords)) k = some d) :
    (d.min ∈ valuesOf bss.flatten k ∧ ∀ v ∈ valuesOf bss.flatten k, d.min ≤ v) ∧
    (d.max ∈ valuesOf bss.flatten k ∧ ∀ v ∈ valuesOf bss.flatten k, v ≤ d.max) := by
  rw [lookup_master] at h
  rcases hvs : valuesOf bss.flatten k with _ | ⟨v, vs⟩
  · rw [hvs] at h
    exact absurd h (by simp [aggOf])
  · rw [hvs] at h
    have hd : d = updFold (seedData v) vs := (Option.some.inj h).symm
    subst hd
    refine ⟨⟨?_, ?_⟩, ?_, ?_⟩
    · rw [updFold_min (wf_seed v)]
      exact foldl_min_mem vs v
    · intro x hx
      rw [updFold_min (wf_seed v)]
      rcases List.mem_cons.mp hx with h1 | h1
      · exact h1 ▸ foldl_min_le_init vs v
      · exact foldl_min_le_mem vs v x h1
    · rw [updFold_max (wf_seed v)]
      exact foldl_max_mem vs v
    · intro x hx
      rw [updFold_max (wf_seed v)]
      rcases List.mem_cons.mp hx with h1 | h1
      · exact h1 ▸ foldl_max_ge_init vs v
      · exact foldl_max_ge_mem vs v x h1

/-- Witness for C7: two batches `X;1.0` and `X;3.0` merge to an aggregate
whose min is 10 and max is 30, the true extrema. -/
theorem C7_min_max_fidelity_witness :
    (((⟨40, 2, 10, 30⟩ : Data).min ∈ valuesOf (List.flatten [[([88], 10)], [([88], 30)]]) [88] ∧
      ∀ v ∈ valuesOf (List.flatten [[([88], 10)], [([88], 30)]]) [88],
        (⟨40, 2, 10, 30⟩ : Data).min ≤ v) ∧
     ((⟨40, 2, 10, 30⟩ : Data).max ∈ valuesOf (List.flatten [[([88], 10)], [([88], 30)]]) [88] ∧
      ∀ v ∈ valuesOf (List.flatten [[([88], 10)], [([88], 30)]]) [88],
        v ≤ (⟨40, 2, 10, 30⟩ : Data).max)) :=
  C7_min_max_fidelity [[([88], 10)], [([88], 30)]] [88] ⟨40, 2, 10, 30⟩ (by decide)

theorem valuesOf_replicate (n : Nat) (k : List Nat) (v : Int) :
    valuesOf (List.replicate n (k, v)) k = List.replicate n v := by
  induction n with
  | zero => rfl
  | succ n ih =>
    rw [List.replicate_succ, List.replicate_succ]
    have hstep : valuesOf ((k, v) :: List.replicate n (k, v)) k =
        v :: valuesOf (List.replicate n (k, v)) k := by
      simp [valuesOf]
    rw [hstep, ih]

theorem sum_replicate_one (n : Nat) : (List.replicate n (1 : Int)).sum = n := by
  induction n with
  | zero => rfl
  | succ n ih =>
    rw [List.replicate_succ, List.sum_cons, ih]
    push_cast
    ring

/-- C8 counterexample: `2 ^ 31` records `X;0.1` for one key have exact sum
`2 ^ 31`, but the `i32` accumulator wraps and the stored `sum` is `-2 ^ 31`,
so exactness "including inputs with billions of rows" is false even though
every individual scaled value fits in `i32`. -/
theorem C8_sum_overflow_counterexample :
    ∃ d, lookupT (processRecords (List.replicate (2 ^ 31) ([88], (1 : Int)))) [88] = some d ∧
      (∀ r ∈ List.replicate (2 ^ 31) ([88], (1 : Int)), -2 ^ 31 ≤ r.2 ∧ r.2 < 2 ^ 31) ∧
      (valuesOf (List.replicate (2 ^ 31) ([88], (1 : Int))) [88]).sum = 2 ^ 31 ∧
      d.sum ≠ (valuesOf (List.replicate (2 ^ 31) ([88], (1 : Int))) [88]).sum ∧
      d.sum = -2 ^ 31 := by
  have hvals : valuesOf (List.replicate (2 ^ 31) ([88], (1 : Int))) [88] =
      List.replicate (2 ^ 31) (1 : Int) := valuesOf_replicate _ _ _
  have hcons : List.replicate ((2 : Nat) ^ 31) (1 : Int) =
      (1 : Int) :: List.replicate ((2 : Nat) ^ 31 - 1) (1 : Int) := by
    rw [show ((2 : Nat) ^ 31) = ((2 : Nat) ^ 31 - 1) + 1 by norm_num, List.replicate_succ,
      Nat.add_sub_cancel]
  have hsum : (List.replicate ((2 : Nat) ^ 31) (1 : Int)).sum = 2 ^ 31 := by
    rw [sum_replicate_one]
    norm_num
  have hcast : ((((2 : Nat) ^ 31 - 1 : Nat)) : Int) = 2 ^ 31 - 1 := by
    rw [Nat.cast_sub (by norm_num)]
    norm_num
  have hwrap : wrap32 (2 ^ 31 : Int) = -2 ^ 31 := by decide
  have hd_sum : (updFold (seedData 1) (List.replicate ((2 : Nat) ^ 31 - 1) (1 : Int))).sum =
      -2 ^ 31 := by
    rw [updFold_sum (by decide) (by decide), sum_replicate_one, hcast]
    show wrap32 (1 + (2 ^ 31 - 1)) = -2 ^ 31
    rw [show (1 : Int) + (2 ^ 31 - 1) = 2 ^ 31 by ring, hwrap]
  refine ⟨updFold (seedData 1) (List.replicate ((2 : Nat) ^ 31 - 1) (1 : Int)), ?_, ?_, ?_, ?_, ?_⟩
  · rw [lookup_processRecords, hvals, hcons]
    rfl
  · intro r hr
    rw [List.eq_of_mem_replicate hr]
    constructor <;> decide
  · rw [hvals, hsum]
  · rw [hvals, hsum, hd_sum]
    decide
  · exact hd_sum

/-- C8 (amended): a key's accumulated `sum` equals the exact mathematical sum
of its scaled values whenever every prefix of that value sequence has a sum
inside the `i32` range; outside that range the accumulator wraps modulo
`2 ^ 32`. -/
theorem C8_sum_exact_when_prefixes_fit (recs : List (List Nat × Int)) (k : List Nat) (d : Data)
    (hlk : lookupT (processRecords recs) k = some d)
    (hpre : ∀ n, n ≤ (valuesOf recs k).length →
      -2 ^ 31 ≤ ((valuesOf recs k).take n).sum ∧ ((valuesOf recs k).take n).sum < 2 ^ 31) :
    d.sum = (valuesOf recs k).sum := by
  rw [lookup_processRecords] at hlk
  rcases hvs : valuesOf recs k with _ | ⟨v, vs⟩
  · rw [hvs] at hlk
    exact absurd hlk (by simp [aggOf])
  · rw [hvs] at hlk hpre
    have hd : d = updFold (seedData v) vs := (Option.some.inj hlk).symm
    subst hd
    have h0 := hpre 1 (by simp)
    simp only [List.take_succ_cons, List.take_zero, List.sum_cons, List.sum_nil, add_zero] at h0
    have hpre2 : ∀ n, n ≤ vs.length →
        -2 ^ 31 ≤ (seedData v).sum + ((vs.take n).sum) ∧
          (seedData v).sum + ((vs.take n).sum) < 2 ^ 31 := by
      intro n hn
      have hn1 := hpre (n + 1) (by simp [hn])
      rw [List.take_succ_cons, List.sum_cons] at hn1
      exact hn1
    rw [updFold_sum_exact vs (seedData v) hpre2]
    rw [List.sum_cons]
    rfl

/-- Witness for C8 (amended): two in-range records for key `X` accumulate the
exact sum `40`. -/
theorem C8_sum_exact_witness :
    (updFold (seedData 10) [30]).sum = (valuesOf [([88], (10 : Int)), ([88], 30)] [88]).sum :=
  C8_sum_exact_when_prefixes_fit [([88], (10 : Int)), ([88], 30)] [88] _ (by decide) (by decide)

theorem popChar_append_nl (l : List Nat) : popChar (l ++ [10]) = l := by
  unfold popChar
  rw [List.reverse_append]
  show ((((10 : Nat) :: l.reverse).dropWhile isCont).drop 1).reverse = l
  rw [List.dropWhile_cons, if_neg (by decide)]
  rw [List.drop_one, List.tail_cons, List.reverse_reverse]

theorem rustSplit_no_sep (l : List Nat) (h : ∀ b ∈ l, b ≠ 10) : rustSplit 10 l = [l] := by
  induction l with
  | nil => rfl
  | cons c cs ih =>
    rw [rustSplit, if_neg (h c (by simp))]
    rw [ih (fun b hb => h b (by simp [hb]))]

theorem rustSplit_cons_sep (l rest : List Nat) (h : ∀ b ∈ l, b ≠ 10) :
    rustSplit 10 (l ++ 10 :: rest) = l :: rustSplit 10 rest := by
  induction l with
  | nil =>
    show rustSplit 10 (10 :: rest) = [] :: rustSplit 10 rest
    rw [rustSplit, if_pos rfl]
  | cons c cs ih =>
    show rustSplit 10 (c :: (cs ++ 10 :: rest)) = _
    rw [rustSplit, if_neg (h c (by simp)), ih (fun b hb => h b (by simp [hb]))]

theorem termLines_cons (l : List Nat) (ls : List (List Nat)) :
    termLines (l :: ls) = l ++ 10 :: termLines ls := by
  show ((l :: ls).map _).flatten = _
  rw [List.map_cons, List.flatten_cons, List.append_assoc]
  rfl

theorem termLines_append (xs ys : List (List Nat)) :
    termLines (xs ++ ys) = termLines xs ++ termLines ys := by
  unfold termLines
  rw [List.map_append, List.flatten_append]

theorem rustSplit_termLines_partial (ls : List (List Nat)) :
    ∀ t : List Nat, (∀ l ∈ ls, ∀ b ∈ l, b ≠ 10) → (∀ b ∈ t, b ≠ 10) →
    rustSplit 10 (termLines ls ++ t) = ls ++ [t] := by
  induction ls with
  | nil =>
    intro t _ ht
    show rustSplit 10 ([] ++ t) = [t]
    rw [List.nil_append]
    exact rustSplit_no_sep t ht
  | cons l ls ih =>
    intro t h10 ht
    rw [termLines_cons, List.append_assoc]
    show rustSplit 10 (l ++ 10 :: (termLines ls ++ t)) = _
    rw [rustSplit_cons_sep _ _ (h10 l (by simp)),
      ih t (fun x hx => h10 x (by simp [hx])) ht]
    rfl

theorem rustSplit_popChar_termLines (ls : List (List Nat)) (hne : ls ≠ [])
    (h10 : ∀ l ∈ ls, ∀ b ∈ l, b ≠ 10) :
    rustSplit 10 (popChar (termLines ls)) = ls := by
  induction ls using List.reverseRecOn with
  | nil => exact absurd rfl hne
  | append_singleton I L _ =>
    rw [termLines_append]
    show rustSplit 10 (popChar (termLines I ++ ((L ++ [10]) ++ []))) = _
    rw [List.append_nil, ← List.append_assoc, popChar_append_nl]
    exact rustSplit_termLines_partial I L
      (fun l hl => h10 l (List.mem_append_left _ hl))
      (h10 L (List.mem_append_right _ (by simp)))

theorem wfLine_no_nl {l : List Nat} (h : wfLine l = true) : ∀ b ∈ l, b ≠ 10 := by
  unfold wfLine at h
  split at h
  next => exact absurd h (by simp)
  next kv heq =>
    simp only [Bool.and_eq_true, List.all_eq_true] at h
    intro b hb
    have := h.2 b hb
    simpa using this

theorem parseLine_of_wf {l : List Nat} (h : wfLine l = true) :
    ∃ r, parseLine l = some r := by
  unfold wfLine at h
  split at h
  next heq => exact absurd h (by simp)
  next kv heq =>
    simp only [Bool.and_eq_true] at h
    refine ⟨(kv.1, wrap32 (scaledIntVal (bytesToChars kv.2))), ?_⟩
    unfold parseLine
    rw [heq]
    show (match parse_i32 (bytesToChars kv.2) with
      | none => none
      | some x => some (kv.1, x)) = some (kv.1, wrap32 (scaledIntVal (bytesToChars kv.2)))
    rw [parse_i32_shaped h.1]

theorem processLines_records (ls : List (List Nat)) :
    ∀ (m : Table) (recs : List (List Nat × Int)), mapOpt parseLine ls = some recs →
    processLines ls m = some (recs.foldl (fun t r => upsert t r.1 r.2) m) := by
  induction ls with
  | nil =>
    intro m recs h
    have : recs = [] := by
      have h2 : some ([] : List (List Nat × Int)) = some recs := h
      exact (Option.some.inj h2).symm
    rw [this]
    rfl
  | cons l ls ih =>
    intro m recs h
    rw [mapOpt] at h
    rcases hpl : parseLine l with _ | r
    · rw [hpl] at h
      exact absurd h (by simp)
    · rw [hpl] at h
      rcases hml : mapOpt parseLine ls with _ | rest
      · rw [hml] at h
        exact absurd h (by simp)
      · rw [hml] at h
        have hrecs : recs = r :: rest := (Option.some.inj h).symm
        subst hrecs
        show processLines (l :: ls) m = _
        rw [processLines, hpl]
        exact ih (upsert m r.1 r.2) rest hml

theorem mapOpt_some_of_all {α β : Type} (f : α → Option β) (ls : List α)
    (h : ∀ l ∈ ls, ∃ r, f l = some r) : ∃ rs, mapOpt f ls = some rs := by
  induction ls with
  | nil => exact ⟨[], rfl⟩
  | cons l ls ih =>
    obtain ⟨r, hr⟩ := h l (by simp)
    obtain ⟨rs, hrs⟩ := ih (fun x hx => h x (by simp [hx]))
    refine ⟨r :: rs, ?_⟩
    rw [mapOpt, hr, hrs]

theorem mapOpt_append {α β : Type} (f : α → Option β) (xs ys : List α)
    (bs cs : List β) (hx : mapOpt f xs = some bs) (hy : mapOpt f ys = some cs) :
    mapOpt f (xs ++ ys) = some (bs ++ cs) := by
  induction xs generalizing bs with
  | nil =>
    have : bs = [] := (Option.some.inj hx).symm
    subst this
    rw [List.nil_append, List.nil_append]
    exact hy
  | cons x xs ih =>
    rw [mapOpt] at hx
    rcases hfx : f x with _ | b
    · rw [hfx] at hx
      exact absurd hx (by simp)
    · rw [hfx] at hx
      rcases hmx : mapOpt f xs with _ | bs2
      · rw [hmx] at hx
        exact absurd hx (by simp)
      · rw [hmx] at hx
        have : bs = b :: bs2 := (Option.some.inj hx).symm
        subst this
        show mapOpt f (x :: (xs ++ ys)) = _
        rw [mapOpt, hfx, ih bs2 hmx]
        rfl

theorem mergeAgg_comm (x y : Option Data) : mergeAgg x y = mergeAgg y x := by
  cases x with
  | none => cases y <;> rfl
  | some a =>
    cases y with
    | none => rfl
    | some b =>
      show some (a.union b) = some (b.union a)
      rw [union_comm]

theorem foldl_mergeAgg_swap (k : List Nat) (x : Option Data) (t u : Table) :
    mergeAgg (mergeAgg x (lookupT t k)) (lookupT u k) =
      mergeAgg (mergeAgg x (lookupT u k)) (lookupT t k) := by
  rw [mergeAgg_assoc, mergeAgg_assoc, mergeAgg_comm (lookupT t k)]

theorem foldl_mergeAgg_perm {ts us : List Table} (hperm : ts.Perm us) (k : List Nat) :
    ∀ x, ts.foldl (fun acc t => mergeAgg acc (lookupT t k)) x =
      us.foldl (fun acc t => mergeAgg acc (lookupT t k)) x := by
  induction hperm with
  | nil => intro x; rfl
  | cons a _ ih =>
    intro x
    exact ih _
  | swap a b l =>
    intro x
    show l.foldl _ (mergeAgg (mergeAgg x (lookupT b k)) (lookupT a k)) =
      l.foldl _ (mergeAgg (mergeAgg x (lookupT a k)) (lookupT b k))
    rw [foldl_mergeAgg_swap]
  | trans _ _ ih1 ih2 =>
    intro x
    rw [ih1, ih2]

theorem lookup_mergeTables_perm (ts us : List Table) (hperm : ts.Perm us)
    (hnd : ∀ t ∈ ts, ((t.map Prod.fst).Nodup)) (k : List Nat) :
    lookupT (mergeTables ts) k = lookupT (mergeTables us) k := by
  unfold mergeTables
  rw [lookup_mergeTables_fold ts [] k hnd,
    lookup_mergeTables_fold us [] k (fun t ht => hnd t (hperm.mem_iff.mpr ht))]
  exact foldl_mergeAgg_perm hperm k _

theorem C6_core (bss : List (List (List Nat)))
    (h1 : ∀ b ∈ bss, b ≠ []) (h2 : ∀ b ∈ bss, ∀ l ∈ b, wfLine l = true) :
    ∃ RLs : List (List (List Nat × Int)),
      mapOpt process_batch (bss.map termLines) = some (RLs.map processRecords) ∧
      mapOpt parseLine bss.flatten = some RLs.flatten := by
  induction bss with
  | nil => exact ⟨[], rfl, rfl⟩
  | cons b bss ih =>
    obtain ⟨RLs, hts, hfl⟩ :=
      ih (fun x hx => h1 x (by simp [hx])) (fun x hx => h2 x (by simp [hx]))
    obtain ⟨recs, hrecs⟩ := mapOpt_some_of_all parseLine b
      (fun l hl => parseLine_of_wf (h2 b (by simp) l hl))
    refine ⟨recs :: RLs, ?_, ?_⟩
    · show mapOpt process_batch (termLines b :: bss.map termLines) = _
      have hb : process_batch (termLines b) = some (processRecords recs) := by
        unfold process_batch
        rw [rustSplit_popChar_termLines b (h1 b (by simp))
          (fun l hl => wfLine_no_nl (h2 b (by simp) l hl))]
        exact processLines_records b [] recs hrecs
      rw [mapOpt, hb, hts]
      rfl
    · show mapOpt parseLine (b ++ bss.flatten) = _
      rw [mapOpt_append parseLine b bss.flatten recs RLs.flatten hrecs hfl]
      rw [List.flatten_cons]

/-- C6: for a fixed well-formed record sequence, aggregating each batch with
`process_batch` and union-merging the local tables yields the same master
table (same lookup for every key) for every split of the records into whole
nonempty batches and for every order in which the local tables are merged; in
particular it equals the table from processing everything as one batch. -/
theorem C6_batch_split_independence (bss : List (List (List Nat)))
    (h0 : bss ≠ []) (h1 : ∀ b ∈ bss, b ≠ [])
    (h2 : ∀ b ∈ bss, ∀ l ∈ b, wfLine l = true) :
    ∃ ts T,
      mapOpt process_batch (bss.map termLines) = some ts ∧
      process_batch (termLines bss.flatten) = some T ∧
      ∀ us : List Table, us.Perm ts → ∀ k, lookupT (mergeTables us) k = lookupT T k := by
  obtain ⟨RLs, hts, hfl⟩ := C6_core bss h1 h2
  have hTflat : process_batch (termLines bss.flatten) = some (processRecords RLs.flatten) := by
    unfold process_batch
    have hflne : bss.flatten ≠ [] := by
      rcases bss with _ | ⟨b, bss⟩
      · exact absurd rfl h0
      · rw [List.flatten_cons]
        intro hc
        exact h1 b (by simp) (List.append_eq_nil.mp hc).1
    rw [rustSplit_popChar_termLines bss.flatten hflne ?_]
    · exact processLines_records _ [] _ hfl
    · intro l hl
      obtain ⟨b, hb, hlb⟩ := List.mem_flatten.mp hl
      exact wfLine_no_nl (h2 b hb l hlb)
  refine ⟨RLs.map processRecords, processRecords RLs.flatten, hts, hTflat, ?_⟩
  intro us hperm k
  rw [lookup_mergeTables_perm us (RLs.map processRecords) hperm ?_ k]
  · rw [lookup_master RLs k, lookup_processRecords]
  · intro t ht
    obtain ⟨rl, _, hrl⟩ := List.mem_map.mp (hperm.mem_iff.mp ht)
    rw [← hrl]
    exact nodup_keys_processRecords rl

/-- Witness for C6: the records `A;1.0` and `B;2.0` split into two
single-line batches give, in any merge order, the same master table as the
single two-line batch. -/
theorem C6_batch_split_independence_witness :
    ∃ ts T,
      mapOpt process_batch ([[strBytes "A;1.0"], [strBytes "B;2.0"]].map termLines) = some ts ∧
      process_batch (termLines ([[strBytes "A;1.0"], [strBytes "B;2.0"]].flatten)) = some T ∧
      ∀ us : List Table, us.Perm ts → ∀ k, lookupT (mergeTables us) k = lookupT T k :=
  C6_batch_split_independence [[strBytes "A;1.0"], [strBytes "B;2.0"]]
    (by decide) (by decide) (by decide)

theorem getLast?_mem_of_eq {l : List Nat} {a : Nat} (h : l.getLast? = some a) : a ∈ l := by
  obtain ⟨hne, heq⟩ := List.mem_getLast?_eq_getLast (l := l) (x := a) (by rw [h]; rfl)
  rw [heq]
  exact List.getLast_mem hne

theorem getLast?_drop_eq {l : List Nat} {n : Nat} (h : l.drop n ≠ []) :
    (l.drop n).getLast? = l.getLast? := by
  conv_rhs => rw [← List.take_append_drop n l]
  rw [List.getLast?_append_of_ne_nil _ h]

theorem rpos_none_of_not_mem (t : Nat) (l : List Nat) (h : t ∉ l) : rpos t l = none := by
  induction l with
  | nil => rfl
  | cons x xs ih =>
    simp only [List.mem_cons, not_or] at h
    rw [rpos, ih h.2, if_neg (fun he => h.1 he.symm)]

theorem rpos_some_of_mem (t : Nat) (l : List Nat) (h : t ∈ l) : ∃ i, rpos t l = some i := by
  induction l with
  | nil => simp at h
  | cons x xs ih =>
    rw [rpos]
    rcases h2 : rpos t xs with _ | j
    · by_cases hx : x = t
      · exact ⟨0, by rw [if_pos hx]⟩
      · rcases List.mem_cons.mp h with h1 | h1
        · exact absurd h1.symm hx
        · obtain ⟨i, hi⟩ := ih h1
          rw [h2] at hi
          exact absurd hi (by simp)
    · exact ⟨j + 1, rfl⟩

theorem rpos_take_concat (t : Nat) (l : List Nat) : ∀ i, rpos t l = some i →
    i + 1 ≤ l.length ∧ ∃ pre, l.take (i + 1) = pre ++ [t] := by
  induction l with
  | nil => intro i h; exact absurd h (by simp [rpos])
  | cons x xs ih =>
    intro i h
    rw [rpos] at h
    rcases h2 : rpos t xs with _ | j
    · rw [h2] at h
      by_cases hx : x = t
      · rw [if_pos hx] at h
        have hi : i = 0 := by
          have := Option.some.inj h
          omega
        subst hi
        refine ⟨by simp, [], ?_⟩
        rw [hx]
        rfl
      · rw [if_neg hx] at h
        exact absurd h (by simp)
    · rw [h2] at h
      have hi : i = j + 1 := (Option.some.inj h).symm
      subst hi
      obtain ⟨hlen, pre, hpre⟩ := ih j h2
      refine ⟨by simp; omega, x :: pre, ?_⟩
      rw [List.take_succ_cons, hpre]
      rfl

theorem drop_take_split (l A B : List Nat) (hl : l = A ++ B) :
    l.drop (l.length - B.length) = B ∧ l.take (l.length - B.length) = A := by
  subst hl
  have h : (A ++ B).length - B.length = A.length := by simp
  rw [h, List.drop_left, List.take_left]
  exact ⟨rfl, rfl⟩

theorem adjustSplit_not_cont (b : List Nat) (r0 : Nat) (rt : List Nat)
    (h : isCont r0 = false) : adjustSplit b (r0 :: rt) = (b, r0 :: rt) := by
  rw [adjustSplit, if_neg (by rw [h]; exact Bool.false_ne_true)]

theorem dropWhile_cont_head (l : List Nat) :
    l.dropWhile isCont = [] ∨
      ∃ y ys, l.dropWhile isCont = y :: ys ∧ isCont y = false := by
  induction l with
  | nil => left; rfl
  | cons x xs ih =>
    rw [List.dropWhile_cons]
    by_cases hx : isCont x = true
    · rw [if_pos hx]
      exact ih
    · rw [if_neg hx]
      right
      exact ⟨x, xs, rfl, by revert hx; cases isCont x <;> simp⟩

/-- C4 counterexample: a remainder beginning (and ending) with continuation
bytes is moved INTO the batch, not the other way around: starting from batch
`[65, 10]` and remainder `[128, 128]`, the adjustment yields batch
`[65, 10, 128, 128]` and empty remainder, so the batch grows — the claim that
the split character is moved into the remainder side rather than the batch
side (leaving both halves valid text) is false. -/
theorem C4_direction_counterexample :
    isCont 128 = true ∧
    adjustSplit [65, 10] [128, 128] = ([65, 10, 128, 128], []) ∧
    ¬((adjustSplit [65, 10] [128, 128]).1.length ≤ [65, 10].length) :=
  ⟨by decide, by decide, by decide⟩

/-- C4 (amended): whenever the newly formed remainder begins with a
continuation byte, the reader walks backward from the END of the remainder
over continuation bytes and moves that maximal trailing run onto the end of
the batch (the two sides keep exactly the same bytes, reordered); it does not
ensure encoding validity of either half. -/
theorem C4_adjustment_moves_trailing_run (b : List Nat) (r0 : Nat) (rt : List Nat)
    (hc : isCont r0 = true) :
    ∃ r1 r2, r0 :: rt = r1 ++ r2 ∧ (∀ x ∈ r2, isCont x = true) ∧
      (r1 = [] ∨ ∃ y, r1.getLast? = some y ∧ isCont y = false) ∧
      adjustSplit b (r0 :: rt) = (b ++ r2, r1) := by
  have hsplit : (r0 :: rt).reverse.takeWhile isCont ++ (r0 :: rt).reverse.dropWhile isCont =
      (r0 :: rt).reverse := List.takeWhile_append_dropWhile _ _
  have hrem2 : r0 :: rt = ((r0 :: rt).reverse.dropWhile isCont).reverse ++
      ((r0 :: rt).reverse.takeWhile isCont).reverse := by
    rw [← List.reverse_append, hsplit, List.reverse_reverse]
  refine ⟨((r0 :: rt).reverse.dropWhile isCont).reverse,
    ((r0 :: rt).reverse.takeWhile isCont).reverse, hrem2, ?_, ?_, ?_⟩
  · intro x hx
    exact List.mem_takeWhile_imp (List.mem_reverse.mp hx)
  · rcases dropWhile_cont_head ((r0 :: rt).reverse) with h | ⟨y, ys, hy, hyc⟩
    · left
      rw [h]
      rfl
    · right
      refine ⟨y, ?_, hyc⟩
      rw [hy, List.getLast?_reverse]
      rfl
  · rw [adjustSplit, if_pos hc]
    have hBlen : (List.takeWhile isCont (r0 :: rt).reverse).length =
        ((List.takeWhile isCont (r0 :: rt).reverse).reverse).length := by
      rw [List.length_reverse]
    rw [hBlen]
    have hsp := drop_take_split (r0 :: rt)
      ((List.dropWhile isCont (r0 :: rt).reverse).reverse)
      ((List.takeWhile isCont (r0 :: rt).reverse).reverse) hrem2
    rw [hsp.1, hsp.2]

/-- Witness for C4 (amended): batch `[65]`, remainder `[128, 65, 128]`: the
trailing run `[128]` moves onto the batch, the remainder keeps `[128, 65]`. -/
theorem C4_adjustment_moves_trailing_run_witness :
    ∃ r1 r2, (128 : Nat) :: [65, 128] = r1 ++ r2 ∧ (∀ x ∈ r2, isCont x = true) ∧
      (r1 = [] ∨ ∃ y, r1.getLast? = some y ∧ isCont y = false) ∧
      adjustSplit [65] ((128 : Nat) :: [65, 128]) = ([65] ++ r2, r1) :=
  C4_adjustment_moves_trailing_run [65] 128 [65, 128] (by decide)

theorem rpos_not_mem_after (t : Nat) (l : List Nat) : ∀ i, rpos t l = some i →
    t ∉ l.drop (i + 1) := by
  induction l with
  | nil => intro i h; exact absurd h (by simp [rpos])
  | cons x xs ih =>
    intro i h
    rw [rpos] at h
    rcases h2 : rpos t xs with _ | j
    · rw [h2] at h
      by_cases hx : x = t
      · rw [if_pos hx] at h
        have hi : i = 0 := by
          have := Option.some.inj h
          omega
        subst hi
        show t ∉ xs
        intro hmem
        obtain ⟨m, hm⟩ := rpos_some_of_mem t xs hmem
        rw [h2] at hm
        exact absurd hm (by simp)
      · rw [if_neg hx] at h
        exact absurd h (by simp)
    · rw [h2] at h
      have hi : i = j + 1 := (Option.some.inj h).symm
      subst hi
      show t ∉ xs.drop (j + 1)
      exact ih j h2

theorem noLongLine_of_short {l : List Nat} (h : l.length < readSize) : noLongLine l := by
  intro j hj
  rw [List.length_drop] at hj
  exact absurd hj (by omega)

theorem nlBoundaryOk_of_B : ∀ l : List Nat, nlBoundaryOkB l = true → nlBoundaryOk l := by
  intro l
  induction l with
  | nil => intro _; exact List.chain'_nil
  | cons x xs ih =>
    intro h
    cases xs with
    | nil => exact List.chain'_singleton x
    | cons y ys =>
      have h2 : ((if x = 10 then !(isCont y) else true) && nlBoundaryOkB (y :: ys)) = true := h
      rw [Bool.and_eq_true] at h2
      show List.Chain' _ (x :: y :: ys)
      rw [List.chain'_cons]
      refine ⟨?_, ih h2.2⟩
      intro hx
      have h1 := h2.1
      rw [if_pos hx] at h1
      simpa using h1

theorem readLoopF_coverage : ∀ (fuel : Nat) (remaining remainder : List Nat),
    remaining.length < fuel →
    (remaining = [] → remainder = []) →
    (remaining ≠ [] → remaining.getLast? = some 10) →
    nlBoundaryOk (remainder ++ remaining) →
    (readLoopF fuel remaining remainder).flatten = remainder ++ remaining := by
  intro fuel
  induction fuel with
  | zero =>
    intro remaining remainder hlt
    exact absurd hlt (by omega)
  | succ fuel ih =>
    intro remaining remainder hlt h0 h10 hnb
    by_cases hre : remaining = []
    · rw [readLoopF, if_pos hre, hre, h0 hre]
      rfl
    · rw [readLoopF, if_neg hre]
      have hck : remainder ++ remaining.take readSize ++ remaining.drop readSize =
          remainder ++ remaining := by
        rw [List.append_assoc, List.take_append_drop]
      have hrest : (remaining.drop readSize).length < fuel := by
        rw [List.length_drop]
        have hp0 : 0 < remaining.length := List.length_pos.mpr hre
        have hrs : 0 < readSize := by norm_num [readSize]
        omega
      have h10' : remaining.drop readSize ≠ [] →
          (remaining.drop readSize).getLast? = some 10 := by
        intro hne
        rw [getLast?_drop_eq hne]
        exact h10 hre
      have hnb0 : List.Chain' (fun x y => x = 10 → isCont y = false)
          ((remainder ++ remaining.take readSize) ++ remaining.drop readSize) := by
        rw [hck]
        exact hnb
      rcases hp : rpos 10 (remainder ++ remaining.take readSize) with _ | i
      · simp only [hp]
        have hnb' : nlBoundaryOk ([] ++ remaining.drop readSize) := by
          rw [List.nil_append]
          exact (List.chain'_append.mp hnb0).2.1
        rw [List.flatten_cons, ih _ _ hrest (fun _ => rfl) h10' hnb']
        rw [List.nil_append]
        exact hck
      · simp only [hp]
        obtain ⟨hile, pre, hpre⟩ := rpos_take_concat 10 _ i hp
        have hlenb : i + 1 ≤ (remainder ++ remaining.take readSize).length := hile
        have hnbb : List.Chain' (fun x y => x = 10 → isCont y = false)
            (remainder ++ remaining.take readSize) := (List.chain'_append.mp hnb0).1
        have hadj : adjustSplit ((remainder ++ remaining.take readSize).take (i + 1))
            ((remainder ++ remaining.take readSize).drop (i + 1)) =
            (((remainder ++ remaining.take readSize).take (i + 1)),
             ((remainder ++ remaining.take readSize).drop (i + 1))) := by
          rcases hr1 : (remainder ++ remaining.take readSize).drop (i + 1) with _ | ⟨y, ys⟩
          · rfl
          · have hch : List.Chain' (fun x y => x = 10 → isCont y = false)
                ((remainder ++ remaining.take readSize).take (i + 1) ++ (y :: ys)) := by
              rw [← hr1, List.take_append_drop]
              exact hnbb
            have h10y := (List.chain'_append.mp hch).2.2 10
              (by rw [hpre]; exact List.getLast?_concat pre) y rfl
            exact adjustSplit_not_cont _ y ys (h10y rfl)
        rw [hadj]
        have hnbr : nlBoundaryOk ((remainder ++ remaining.take readSize).drop (i + 1) ++
            remaining.drop readSize) := by
          have hdec : (remainder ++ remaining.take readSize).drop (i + 1) ++
              remaining.drop readSize =
              ((remainder ++ remaining.take readSize) ++ remaining.drop readSize).drop (i + 1) :=
            (List.drop_append_of_le_length hile).symm
          rw [hdec]
          exact List.Chain'.suffix hnb0 (List.drop_suffix _ _)
        have hrem1 : remaining.drop readSize = [] →
            (remainder ++ remaining.take readSize).drop (i + 1) = [] := by
          intro hrnil
          by_contra hne
          have htfull : remaining.take readSize = remaining :=
            List.take_of_length_le (List.drop_eq_nil_iff.mp hrnil)
          have h1 : ((remainder ++ remaining.take readSize).drop (i + 1)).getLast? =
              some 10 := by
            rw [getLast?_drop_eq hne, htfull,
              List.getLast?_append_of_ne_nil _ hre]
            exact h10 hre
          exact rpos_not_mem_after 10 _ i hp (getLast?_mem_of_eq h1)
        rw [List.flatten_cons, ih _ _ hrest hrem1 h10' hnbr]
        rw [← List.append_assoc, List.take_append_drop]
        exact hck

/-- C3 counterexample: the well-formed input `A;1.0\nB;2.0`, whose last
record is not newline-terminated, is NOT fully covered: the reader leaves
`B;2.0` in the remainder and drops it at end-of-input, so the final record
never reaches any batch. -/
theorem C3_unterminated_record_dropped :
    wfInput (strBytes "A;1.0\nB;2.0") = true ∧
    readBatches (strBytes "A;1.0\nB;2.0") = [strBytes "A;1.0\n"] ∧
    (readBatches (strBytes "A;1.0\nB;2.0")).flatten ≠ strBytes "A;1.0\nB;2.0" :=
  ⟨by decide, by decide, by decide⟩

/-- C3 (amended): for every nonempty input that ends with a line break (and
never has a continuation byte right after a newline, as valid encoded text
guarantees), the batches emitted by the reader loop cover the entire input
exactly once and in order: their concatenation is the input.  A trailing
record not terminated by a line break is instead discarded with the final
remainder. -/
theorem C3_coverage_of_terminated (input : List Nat)
    (h1 : input ≠ []) (h2 : input.getLast? = some 10) (h3 : nlBoundaryOkB input = true) :
    (readBatches input).flatten = input := by
  unfold readBatches
  exact readLoopF_coverage (input.length + 1) input [] (by omega)
    (fun h => absurd h h1) (fun _ => h2) (nlBoundaryOk_of_B input h3)

/-- Witness for C3 (amended): the single-record terminated input `A;1.0`
followed by a newline is covered exactly. -/
theorem C3_coverage_of_terminated_witness :
    (readBatches (strBytes "A;1.0\n")).flatten = strBytes "A;1.0\n" :=
  C3_coverage_of_terminated _ (by decide) (by decide) (by decide)

theorem concat_of_getLast? {l : List Nat} {a : Nat} (h : l.getLast? = some a) :
    ∃ pre, l = pre ++ [a] := by
  obtain ⟨hne, heq⟩ := List.mem_getLast?_eq_getLast (l := l) (x := a) (by rw [h]; rfl)
  refine ⟨l.dropLast, ?_⟩
  rw [heq]
  exact (List.dropLast_append_getLast hne).symm

theorem adjust_id_of_boundary (l : List Nat) (i : Nat)
    (hnbb : List.Chain' (fun x y => x = 10 → isCont y = false) l)
    (hpre : ∃ pre, l.take (i + 1) = pre ++ [10]) :
    adjustSplit (l.take (i + 1)) (l.drop (i + 1)) = (l.take (i + 1), l.drop (i + 1)) := by
  obtain ⟨pre, hpre⟩ := hpre
  rcases hr1 : l.drop (i + 1) with _ | ⟨y, ys⟩
  · rfl
  · have hch : List.Chain' (fun x y => x = 10 → isCont y = false)
        (l.take (i + 1) ++ (y :: ys)) := by
      rw [← hr1, List.take_append_drop]
      exact hnbb
    have h10y := (List.chain'_append.mp hch).2.2 10
      (by rw [hpre]; exact List.getLast?_concat pre) y rfl
    exact adjustSplit_not_cont _ y ys (h10y rfl)

theorem readLoopF_terminated : ∀ (fuel : Nat) (remaining remainder : List Nat),
    remaining.length < fuel →
    (remaining ≠ [] → remaining.getLast? = some 10) →
    nlBoundaryOk (remainder ++ remaining) →
    noLongLine remaining →
    ∀ b ∈ readLoopF fuel remaining remainder, ∃ pre, b = pre ++ [10] := by
  intro fuel
  induction fuel with
  | zero =>
    intro remaining remainder hlt _ _ _ b hb
    exact absurd hlt (by omega)
  | succ fuel ih =>
    intro remaining remainder hlt h10 hnb hwin b hb
    by_cases hre : remaining = []
    · rw [readLoopF, if_pos hre] at hb
      exact absurd hb (by simp)
    · rw [readLoopF, if_neg hre] at hb
      have hck : remainder ++ remaining.take readSize ++ remaining.drop readSize =
          remainder ++ remaining := by
        rw [List.append_assoc, List.take_append_drop]
      have hnb0 : List.Chain' (fun x y => x = 10 → isCont y = false)
          ((remainder ++ remaining.take readSize) ++ remaining.drop readSize) := by
        rw [hck]
        exact hnb
      have hsome : ∃ i, rpos 10 (remainder ++ remaining.take readSize) = some i := by
        apply rpos_some_of_mem
        apply List.mem_append_right
        by_cases hrest : remaining.drop readSize = []
        · have htfull : remaining.take readSize = remaining :=
            List.take_of_length_le (List.drop_eq_nil_iff.mp hrest)
          rw [htfull]
          exact getLast?_mem_of_eq (h10 hre)
        · have hlen : readSize ≤ remaining.length := by
            by_contra hc
            exact hrest (List.drop_eq_nil_iff.mpr (by omega))
          have h0 := hwin 0 (by simpa using hlen)
          simpa using h0
      obtain ⟨i, hp⟩ := hsome
      simp only [hp] at hb
      obtain ⟨hile, pre, hpre⟩ := rpos_take_concat 10 _ i hp
      have hadj := adjust_id_of_boundary (remainder ++ remaining.take readSize) i
        (List.chain'_append.mp hnb0).1 ⟨pre, hpre⟩
      rw [hadj] at hb
      rcases List.mem_cons.mp hb with hb1 | hb2
      · exact ⟨pre, by rw [hb1]; exact hpre⟩
      · have hrest : (remaining.drop readSize).length < fuel := by
          rw [List.length_drop]
          have hp0 : 0 < remaining.length := List.length_pos.mpr hre
          have hrs : 0 < readSize := by norm_num [readSize]
          omega
        have h10' : remaining.drop readSize ≠ [] →
            (remaining.drop readSize).getLast? = some 10 := by
          intro hne
          rw [getLast?_drop_eq hne]
          exact h10 hre
        have hnbr : nlBoundaryOk ((remainder ++ remaining.take readSize).drop (i + 1) ++
            remaining.drop readSize) := by
          have hdec : (remainder ++ remaining.take readSize).drop (i + 1) ++
              remaining.drop readSize =
              ((remainder ++ remaining.take readSize) ++ remaining.drop readSize).drop (i + 1) :=
            (List.drop_append_of_le_length hile).symm
          rw [hdec]
          exact List.Chain'.suffix hnb0 (List.drop_suffix _ _)
        have hwin' : noLongLine (remaining.drop readSize) := by
          intro j hj
          rw [List.drop_drop] at hj ⊢
          exact hwin (readSize + j) hj
        exact ih _ _ hrest h10' hnbr hwin' b hb2

theorem dropWhile_nl_decomp (l : List Nat) (h : (10 : Nat) ∈ l) :
    ∃ tl, l.dropWhile (fun x => x != 10) = 10 :: tl ∧
      l = l.takeWhile (fun x => x != 10) ++ 10 :: tl := by
  induction l with
  | nil => simp at h
  | cons x xs ih =>
    by_cases hx : x = 10
    · subst hx
      refine ⟨xs, ?_, ?_⟩
      · rw [List.dropWhile_cons, if_neg (by decide)]
      · rw [List.takeWhile_cons, if_neg (by decide), List.nil_append]
    · have hmem : (10 : Nat) ∈ xs := by
        rcases List.mem_cons.mp h with h1 | h1
        · exact absurd h1.symm hx
        · exact h1
      obtain ⟨tl, h1, h2⟩ := ih hmem
      have hpx : ((x != 10) = true) := by simpa using hx
      refine ⟨tl, ?_, ?_⟩
      · rw [List.dropWhile_cons, if_pos hpx]
        exact h1
      · rw [List.takeWhile_cons, if_pos hpx, List.cons_append]
        exact congrArg (x :: ·) h2

theorem nlSplitF_nil : ∀ fuel, nlSplitF fuel [] = [] := by
  intro fuel
  cases fuel <;> rfl

theorem nlSplitF_term : ∀ (fuel : Nat) (l : List Nat), l.length ≤ fuel →
    l.getLast? = some 10 →
    termLines (nlSplitF fuel l) = l ∧ ∀ s ∈ nlSplitF fuel l, ∀ b ∈ s, b ≠ 10 := by
  intro fuel
  induction fuel with
  | zero =>
    intro l hl h10
    have hnil : l = [] := List.eq_nil_of_length_eq_zero (by omega)
    rw [hnil] at h10
    exact absurd h10 (by simp)
  | succ fuel ih =>
    intro l hl h10
    rcases hlc : l with _ | ⟨b, bs⟩
    · rw [hlc] at h10
      exact absurd h10 (by simp)
    · subst hlc
      have hmem : (10 : Nat) ∈ b :: bs := getLast?_mem_of_eq h10
      obtain ⟨tl, hdw, hde⟩ := dropWhile_nl_decomp _ hmem
      have hrest2 : (((b :: bs).dropWhile (fun x => x != 10)).drop 1) = tl := by
        rw [hdw]
        rfl
      have hunfold : nlSplitF (fuel + 1) (b :: bs) =
          ((b :: bs).takeWhile (fun x => x != 10)) :: nlSplitF fuel tl := by
        rw [show nlSplitF (fuel + 1) (b :: bs) = ((b :: bs).takeWhile (fun x => x != 10)) ::
          nlSplitF fuel (((b :: bs).dropWhile (fun x => x != 10)).drop 1) from rfl, hrest2]
      rw [hunfold]
      have htwlen : ((b :: bs).takeWhile (fun x => x != 10)).length + 1 + tl.length =
          (b :: bs).length := by
        have hlen := congrArg List.length hde
        simp only [List.length_append, List.length_cons] at hlen ⊢
        omega
      have htw10 : ∀ x ∈ (b :: bs).takeWhile (fun x => x != 10), x ≠ 10 := by
        intro x hx
        have hpx := List.mem_takeWhile_imp hx
        simpa using hpx
      by_cases htl : tl = []
      · subst htl
        constructor
        · rw [nlSplitF_nil, termLines_cons]
          show _ ++ 10 :: termLines [] = _
          rw [show termLines [] = [] from rfl]
          exact hde.symm
        · intro s hs b2 hb2
          rw [nlSplitF_nil] at hs
          rcases List.mem_cons.mp hs with h1 | h1
          · rw [h1] at hb2
            exact htw10 b2 hb2
          · simp at h1
      · have h10tl : tl.getLast? = some 10 := by
          have he : (b :: bs).getLast? = tl.getLast? := by
            rw [hde, List.getLast?_append_of_ne_nil _ (by simp : ((10 : Nat) :: tl) ≠ [])]
            rw [show ((10 : Nat) :: tl) = [10] ++ tl from rfl,
              List.getLast?_append_of_ne_nil _ htl]
          rw [← he]
          exact h10
        have htllen : tl.length ≤ fuel := by
          have hlb : (b :: bs).length ≤ fuel + 1 := hl
          omega
        obtain ⟨ihterm, ihlines⟩ := ih tl htllen h10tl
        constructor
        · rw [termLines_cons, ihterm]
          exact hde.symm
        · intro s hs b2 hb2
          rcases List.mem_cons.mp hs with h1 | h1
          · rw [h1] at hb2
            exact htw10 b2 hb2
          · exact ihlines s h1 b2 hb2

theorem termLines_split : ∀ (L : List (List Nat)) (p rest : List Nat),
    (∀ l ∈ L, ∀ x ∈ l, x ≠ 10) → p ++ 10 :: rest = termLines L →
    ∃ L₁ L₂, L = L₁ ++ L₂ ∧ termLines L₁ = p ++ [10] ∧ termLines L₂ = rest := by
  intro L
  induction L with
  | nil =>
    intro p rest _ h
    exact absurd h (by simp [termLines])
  | cons l L ih =>
    intro p rest hfree h
    rw [termLines_cons] at h
    rcases List.append_eq_append_iff.mp h with ⟨a, ha1, ha2⟩ | ⟨c, hc1, hc2⟩
    · rcases a with _ | ⟨a0, a'⟩
      · rw [List.append_nil] at ha1
        rw [List.nil_append] at ha2
        injection ha2 with h1 h2
        refine ⟨[l], L, rfl, ?_, h2.symm⟩
        rw [termLines_cons, ha1]
        rfl
      · rw [List.cons_append] at ha2
        injection ha2 with h1 h2
        have ha0l : a0 ∈ l := by
          rw [ha1]
          exact List.mem_append_right _ (by simp)
        exact absurd h1.symm (hfree l (by simp) a0 ha0l)
    · rcases c with _ | ⟨c0, c'⟩
      · rw [List.append_nil] at hc1
        rw [List.nil_append] at hc2
        injection hc2 with h1 h2
        refine ⟨[l], L, rfl, ?_, h2⟩
        rw [termLines_cons, hc1]
        rfl
      · rw [List.cons_append] at hc2
        injection hc2 with h1 h2
        obtain ⟨L₁, L₂, hL, hT1, hT2⟩ := ih c' rest (fun x hx => hfree x (by simp [hx])) h2.symm
        refine ⟨l :: L₁, L₂, ?_, ?_, hT2⟩
        · rw [List.cons_append, hL]
        · rw [termLines_cons, hT1, hc1, ← h1]
          simp

theorem batches_align : ∀ (bs : List (List Nat)) (L : List (List Nat)),
    (∀ b ∈ bs, ∃ p, b = p ++ [10]) → (∀ l ∈ L, ∀ x ∈ l, x ≠ 10) →
    bs.flatten = termLines L →
    ∃ Ls : List (List (List Nat)), Ls.flatten = L ∧ bs = Ls.map termLines := by
  intro bs
  induction bs with
  | nil =>
    intro L _ _ h
    cases L with
    | nil => exact ⟨[], rfl, rfl⟩
    | cons l L =>
      rw [termLines_cons] at h
      exact absurd h.symm (by simp)
  | cons b bs ih =>
    intro L hterm hfree h
    obtain ⟨p, hp⟩ := hterm b (by simp)
    rw [List.flatten_cons, hp, List.append_assoc] at h
    have h2 : p ++ 10 :: bs.flatten = termLines L := h
    obtain ⟨L₁, L₂, hL, hT1, hT2⟩ := termLines_split L p bs.flatten hfree h2
    obtain ⟨Ls, hf, hm⟩ := ih L₂ (fun x hx => hterm x (by simp [hx]))
      (fun s hs => hfree s (by rw [hL]; exact List.mem_append_right _ hs)) hT2.symm
    refine ⟨L₁ :: Ls, ?_, ?_⟩
    · rw [List.flatten_cons, hf, hL]
    · rw [List.map_cons, hT1, ← hm, ← hp]

theorem processLines_none : ∀ (ls : List (List Nat)) (m : Table),
    (∃ l ∈ ls, parseLine l = none) → processLines ls m = none := by
  intro ls
  induction ls with
  | nil =>
    intro m h
    obtain ⟨l, hl, _⟩ := h
    simp at hl
  | cons l ls ih =>
    intro m h
    obtain ⟨x, hx, hnone⟩ := h
    rcases List.mem_cons.mp hx with h1 | h1
    · have hln : parseLine l = none := h1 ▸ hnone
      rw [processLines, hln]
    · rcases hpl : parseLine l with _ | r
      · rw [processLines, hpl]
      · rw [processLines, hpl]
        exact ih _ ⟨x, h1, hnone⟩

theorem mapOpt_none {α β : Type} (f : α → Option β) : ∀ (ls : List α),
    (∃ l ∈ ls, f l = none) → mapOpt f ls = none := by
  intro ls
  induction ls with
  | nil =>
    intro h
    obtain ⟨l, hl, _⟩ := h
    simp at hl
  | cons a as ih =>
    intro h
    obtain ⟨x, hx, hnone⟩ := h
    rcases List.mem_cons.mp hx with h1 | h1
    · have hfa : f a = none := h1 ▸ hnone
      rw [mapOpt, hfa]
    · rcases hfa : f a with _ | b
      · rw [mapOpt, hfa]
      · rw [mapOpt, hfa, ih ⟨x, h1, hnone⟩]

theorem parseLine_none_of_no_sep {l : List Nat} (h : (59 : Nat) ∉ l) :
    parseLine l = none := by
  have hs : split_line l = none := by
    unfold split_line
    rw [rpos_none_of_not_mem 59 l h]
  unfold parseLine
  rw [hs]

/-- C9 counterexample: the input `A;1.0` newline `B` has the line `B` with no
delimiter byte, yet the run does not terminate as a fatal error: the
unterminated line is silently dropped by the reader, and the full report for
the remaining lines is printed. -/
theorem C9_no_delimiter_counterexample :
    [66] ∈ nlSplit (strBytes "A;1.0\nB") ∧ (59 : Nat) ∉ [66] ∧
    process_file (strBytes "A;1.0\nB") = some "\x7bA=1/1.0/1\x7d\n" :=
  ⟨by decide, by decide, by decide⟩

/-- C9 (amended): a line missing the delimiter byte `b';'` is fatal — the run
aborts with no output at all — whenever the line is terminated by a line break
(so it reaches a batch): `split_line` returns `None`, the per-line match hits
`unreachable!`, and the panic preempts every write.  The hypotheses say the
input ends with a line break, never places a continuation byte right after a
newline (true of valid encoded text), and keeps every line shorter than one
read (true of record-shaped inputs); some input line then contains no
delimiter.  An unterminated final line escapes this fate: it is discarded
unread, and the run completes with output (see the counterexample). -/
theorem C9_missing_delimiter_fatal (input : List Nat)
    (h10 : input.getLast? = some 10)
    (hnb : nlBoundaryOkB input = true)
    (hwin : noLongLine input)
    (hbad : ∃ l ∈ nlSplit input, (59 : Nat) ∉ l) :
    process_file input = none := by
  have hne : input ≠ [] := by
    intro h
    rw [h] at h10
    exact absurd h10 (by simp)
  obtain ⟨hterm, hfree⟩ := nlSplitF_term input.length input (le_refl _) h10
  have hterm2 : termLines (nlSplit input) = input := hterm
  have hfree2 : ∀ s ∈ nlSplit input, ∀ b ∈ s, b ≠ 10 := hfree
  have hcov : (readBatches input).flatten = input := by
    unfold readBatches
    exact readLoopF_coverage (input.length + 1) input [] (by omega)
      (fun h => absurd h hne) (fun _ => h10) (nlBoundaryOk_of_B input hnb)
  have hbt : ∀ b ∈ readBatches input, ∃ p, b = p ++ [10] := by
    unfold readBatches
    intro b hb
    exact readLoopF_terminated (input.length + 1) input [] (by omega)
      (fun _ => h10) (nlBoundaryOk_of_B input hnb) hwin b hb
  obtain ⟨Ls, hLf, hLm⟩ := batches_align (readBatches input) (nlSplit input) hbt hfree2
    (by rw [hcov, hterm2])
  obtain ⟨l, hl, hno59⟩ := hbad
  obtain ⟨Li, hLi, hlLi⟩ := List.mem_flatten.mp (hLf ▸ hl)
  have hbmem : termLines Li ∈ readBatches input := by
    rw [hLm]
    exact List.mem_map_of_mem _ hLi
  have hpbnone : process_batch (termLines Li) = none := by
    show processLines (rustSplit 10 (popChar (termLines Li))) [] = none
    rw [rustSplit_popChar_termLines Li (List.ne_nil_of_mem hlLi)
      (fun s hs => hfree2 s (by rw [← hLf]; exact List.mem_flatten.mpr ⟨Li, hLi, hs⟩))]
    exact processLines_none Li [] ⟨l, hlLi, parseLine_none_of_no_sep hno59⟩
  unfold process_file
  rw [mapOpt_none process_batch (readBatches input) ⟨termLines Li, hbmem, hpbnone⟩]

/-- Witness for C9 (amended): the terminated single-line input `A` newline,
whose one line has no delimiter, makes the whole run abort with no output. -/
theorem C9_missing_delimiter_fatal_witness :
    process_file (strBytes "A\n") = none :=
  C9_missing_delimiter_fatal (strBytes "A\n") (by decide) (by decide)
    (noLongLine_of_short (by decide)) ⟨[65], by decide, by decide⟩
